import Mathlib

/-!
# Verification of the ditto distribution-model conversion pipeline

Shallow embedding of the CIM/CYME reader and CIM writer logic of the
`ditto` repository, together with proofs that settle the frozen claims
about the natural-language specification against the code.

Conventions:
* Python floats that only enter comparisons and exact arithmetic are
  modelled as `ℚ`.
* Fallible Python code (exceptions) is modelled with `Except`/`Option`.
* Pandas frames are modelled as lists of typed rows; `Series.unique`
  (which keeps the first occurrence) is modelled by `uniqueFirst`.
-/

namespace Ditto

/-- First-occurrence deduplication, mirroring `pandas.Series.unique` and
Python's insertion-ordered de-duplication idioms. -/
def uniqueFirst {α : Type} [DecidableEq α] (l : List α) : List α :=
  l.foldl (fun acc x => if x ∈ acc then acc else acc ++ [x]) []

/-! ## CIM query layer: phase-string canonicalization
Source: `src/ditto/readers/cim_iec_61968_13/queries.py`, `_sorted_phase_string`. -/

namespace CimQueries

/-- The fixed phase alphabet `["A", "B", "C", "N"]` of
`_sorted_phase_string` (`phase_order` in the source). -/
def phaseOrder : List Char := ['A', 'B', 'C', 'N']

/-- One raw phase token: `None` or a string value
(`str(raw_phase)` is applied by the source, so we take strings). -/
abbrev RawPhase := Option String

/-- Characters contributed by one raw token: the source uppercases the
token, strips nothing else, and keeps the characters that occur in
`phase_order` (`{phase for phase in phase_text if phase in phase_order}`;
the `.replace(",", "")` is subsumed because `','` is not in the alphabet). -/
def tokenChars (v : RawPhase) : List Char :=
  match v with
  | none => []
  | some s => (s.toList.map Char.toUpper).filter (· ∈ phaseOrder)

/-- The accumulated character pool of `_sorted_phase_string`'s loop. -/
def collectChars (vals : List RawPhase) : List Char :=
  vals.foldl (fun acc v => acc ++ tokenChars v) []

/-- `"," .join(ordered_phases)` on single characters. -/
def commaJoin (cs : List Char) : String :=
  String.intercalate "," (cs.map Char.toString)

/-- `_sorted_phase_string`: order the distinct observed phases by the
fixed alphabet and comma-join them, returning `None` when no phase at
all was observed. -/
def sortedPhaseString (vals : List RawPhase) : Option String :=
  let pool := collectChars vals
  let ordered := phaseOrder.filter (· ∈ pool)
  if ordered.isEmpty then none else some (commaJoin ordered)

end CimQueries

/-! ## CIM winding equipment mapper
Source: `src/ditto/readers/cim_iec_61968_13/equipment/winding_equipment.py`. -/

namespace WindingEquip

inductive Phase where
  | A | B | C
  deriving DecidableEq, Repr

/-- The registry view needed by `_infer_phases_from_voltage`: resolving a
bus name to its rated voltage (in volt).  `none` models both a missing
bus and the `except Exception` fallback of the source. -/
abbrev BusLookup := String → Option ℚ

/-- `WindingEquipmentMapper._infer_phases_from_voltage`: with no explicit
winding-phase column, classify the winding as three-phase when the
winding-voltage / bus-voltage ratio lies in the closed band
`[1.45, 2.05]`, single-phase (`[A]`) otherwise, and default to all three
phases when the bus is unresolvable or either voltage is non-positive.
`busName` is `full_row.get(f"bus_{index}")`; `windingVoltage` is
`float(full_row.get(f"wdg_{index}_rated_voltage", 0.0))`. -/
def inferPhasesFromVoltage (busName : Option String) (sys : BusLookup)
    (windingVoltage : ℚ) : List Phase :=
  match busName with
  | none => [Phase.A, Phase.B, Phase.C]
  | some name =>
    match sys name with
    | none => [Phase.A, Phase.B, Phase.C]
    | some busVoltage =>
      if busVoltage ≤ 0 ∨ windingVoltage ≤ 0 then [Phase.A, Phase.B, Phase.C]
      else
        let ratio := windingVoltage / busVoltage
        if 29/20 ≤ ratio ∧ ratio ≤ 41/20 then [Phase.A, Phase.B, Phase.C]
        else [Phase.A]

/-- One raw per-winding tap field as seen by `_build_winding`'s
`mapping` loop: `none` stands for a key that is absent from the row or
carries a falsy value (`None`/`0`/empty) — both take the default — and
`some x` for a numeric value `x`.  `0` is kept separate because Python's
`if row[k]:` treats a present `0` as falsy. -/
def tapValue (field : Option ℚ) (default : ℚ) : ℚ :=
  match field with
  | none => default
  | some x => if x = 0 then default else x

/-- The tap-related columns of one winding's slice of the row. -/
structure TapRow where
  normalTap : Option ℚ
  maxTap : Option ℚ
  minTap : Option ℚ
  dv : Option ℚ

/-- The per-unit tap quantities computed by `_build_winding`
(lines 52–72 of the source): defaults `normal=0, max=16, min=-16,
dv=0.625`, then `dv /= 100`, `total_taps = max - min`,
`pu = step * dv + 1`. -/
structure TapResult where
  puTap : ℚ
  maxTapPu : ℚ
  minTapPu : ℚ
  totalTaps : ℚ
  deriving DecidableEq, Repr

def buildWindingTaps (row : TapRow) : TapResult :=
  let normalTap := tapValue row.normalTap 0
  let maxTap := tapValue row.maxTap 16
  let minTap := tapValue row.minTap (-16)
  let dv := tapValue row.dv (625/1000)
  let dv := dv / 100
  { puTap := normalTap * dv + 1
    maxTapPu := maxTap * dv + 1
    minTapPu := minTap * dv + 1
    totalTaps := maxTap - minTap }

end WindingEquip

/-! ## CIM switch equipment synthesis
Source: `src/ditto/readers/cim_iec_61968_13/components/matrix_impedance_switch.py`,
`MatrixImpedanceSwitchMapper.map_equipment`. -/

namespace SwitchEquip

/-- A registered `MatrixImpedanceBranchEquipment` record: its identity
key (`uuid`), name, and impedance matrix (only the row count matters to
`map_equipment`'s `len(x.r_matrix)` filter). -/
structure BranchEquipment where
  uuid : Nat
  name : String
  rMatrix : List (List ℚ)
  deriving DecidableEq, Repr

/-- The cloned switch equipment: `model_dump(exclude={"uuid"})` keeps
every field except the identity key. -/
structure SwitchEquipment where
  name : String
  rMatrix : List (List ℚ)
  deriving DecidableEq, Repr

def cloneWithoutUuid (e : BranchEquipment) : SwitchEquipment :=
  { name := e.name, rMatrix := e.rMatrix }

/-- `MatrixImpedanceSwitchMapper.map_equipment`: filter the registered
branch-impedance equipment by matrix dimension = the switch's phase
count, clone the first match without its `uuid`, or raise a
`ValueError` naming the switch and phase count. -/
def mapEquipment (registered : List BranchEquipment) (nPhases : Nat)
    (switchName : String) : Except String SwitchEquipment :=
  let equipments := registered.filter (fun e => e.rMatrix.length == nPhases)
  match equipments with
  | e :: _ => .ok (cloneWithoutUuid e)
  | [] => .error ("No MatrixImpedanceBranchEquipment found for switch '"
      ++ switchName ++ "' with " ++ toString nPhases ++ " phases")

end SwitchEquip

/-! ## CIM query layer: multi-terminal entity reduction
Source: `queries.py`, `query_load_break_switches` (lines 197–224) and
`query_line_segments` (lines 266–302).  One raw row per terminal; the
reduction groups rows by entity id, reads its distinct bus values in
first-occurrence order (`Series.unique`), drops entities with fewer
than two distinct buses with a warning, and reshapes the rest into
`bus_1`/`bus_2` rows.  The scalar per-entity columns (capacity, voltage,
length, line code, …) are carried opaquely in a single `attrs` field. -/

namespace CimQueries

/-- One raw terminal row of the load-break-switch query; `attrs` stands
for the columns `capacity, ratedCurrent, normally_open, is_open,
voltage` that the reduction copies through unchanged. -/
structure SwRow where
  switchName : String
  attrs : String
  bus : String
  deriving DecidableEq, Repr

/-- One reduced row: the `bus` column replaced by `bus_1`/`bus_2`. -/
structure SwOut where
  switchName : String
  attrs : String
  bus1 : String
  bus2 : String
  deriving DecidableEq, Repr

/-- The reduced rows contributed by one switch entity: empty when the
entity has fewer than two distinct buses (it is skipped with a
warning), otherwise its de-duplicated rows with `bus_1`/`bus_2` set to
the first two distinct buses (`buses[0]`, `buses[1]`).  The later
`data.drop("bus", …)` is reflected by `SwOut` not carrying `bus`. -/
def switchEntityOut (rows : List SwRow) (name : String) : List SwOut :=
  match uniqueFirst ((rows.filter (fun r => r.switchName == name)).map
      (fun r => r.bus)) with
  | b1 :: b2 :: _ =>
    (uniqueFirst (rows.filter (fun r => r.switchName == name))).map (fun r =>
      { switchName := r.switchName, attrs := r.attrs, bus1 := b1, bus2 := b2 })
  | _ => []

/-- The warning logged for one entity, when it has fewer than two
distinct buses. -/
def switchEntityWarn (rows : List SwRow) (name : String) : Option String :=
  if (uniqueFirst ((rows.filter (fun r => r.switchName == name)).map
      (fun r => r.bus))).length < 2 then
    some ("Switch '" ++ name ++ "' has fewer than 2 buses ("
      ++ toString (uniqueFirst ((rows.filter (fun r => r.switchName == name)).map
        (fun r => r.bus))).length ++ "), skipping")
  else none

/-- `query_load_break_switches`'s reduction loop: iterate the distinct
entity names, collect reduced rows and warnings, and de-duplicate the
concatenated result (the final `drop_duplicates` after dropping the
`bus` column).  The single Python loop is split into the rows pass and
the warnings pass; both visit the same entities in the same order. -/
def querySwitchReduce (rows : List SwRow) : List SwOut × List String :=
  (uniqueFirst ((uniqueFirst (rows.map (fun r => r.switchName))).flatMap
      (switchEntityOut rows)),
    (uniqueFirst (rows.map (fun r => r.switchName))).filterMap
      (switchEntityWarn rows))

/-- One raw terminal row of the AC-line-segment query; `attrs` stands
for `voltage, length, phase_count, line_code`. -/
structure LineRow where
  line : String
  attrs : String
  bus : String
  phase : Option String
  deriving DecidableEq, Repr

structure LineOut where
  line : String
  attrs : String
  bus1 : String
  phases1 : Option String
  bus2 : String
  phases2 : Option String
  deriving DecidableEq, Repr

/-- The per-bus phase observations of one entity
(`bus_phases[bus] = filt_data[filt_data["bus"] == bus]["phase"].to_list()`). -/
def linePhasesOf (rows : List LineRow) (name : String) (b : String) :
    List (Option String) :=
  ((rows.filter (fun r => r.line == name)).filter (fun r => r.bus == b)).map
    (fun r => r.phase)

/-- The reduced rows contributed by one line entity
(`query_line_segments`): skipped when fewer than two distinct buses;
otherwise the de-duplicated scalar columns with `bus_1`/`bus_2` set to
the first two distinct buses and per-bus canonicalized phase strings. -/
def lineEntityOut (rows : List LineRow) (name : String) : List LineOut :=
  match uniqueFirst ((rows.filter (fun r => r.line == name)).map
      (fun r => r.bus)) with
  | b1 :: b2 :: _ =>
    (uniqueFirst ((rows.filter (fun r => r.line == name)).map
        (fun r => (r.line, r.attrs)))).map (fun p =>
      { line := p.1, attrs := p.2,
        bus1 := b1, phases1 := sortedPhaseString (linePhasesOf rows name b1),
        bus2 := b2, phases2 := sortedPhaseString (linePhasesOf rows name b2) })
  | _ => []

def lineEntityWarn (rows : List LineRow) (name : String) : Option String :=
  if (uniqueFirst ((rows.filter (fun r => r.line == name)).map
      (fun r => r.bus))).length < 2 then
    some ("Line '" ++ name ++ "' has fewer than 2 buses ("
      ++ toString (uniqueFirst ((rows.filter (fun r => r.line == name)).map
        (fun r => r.bus))).length ++ "), skipping")
  else none

/-- `query_line_segments`'s reduction loop (no trailing global
de-duplication: the source only concatenates the per-entity frames). -/
def queryLinesReduce (rows : List LineRow) : List LineOut × List String :=
  ((uniqueFirst (rows.map (fun r => r.line))).flatMap (lineEntityOut rows),
    (uniqueFirst (rows.map (fun r => r.line))).filterMap (lineEntityWarn rows))

end CimQueries

/-! ## CIM reader: bus-phase assignment pass
Source: `src/ditto/readers/cim_iec_61968_13/reader.py`,
`Reader._set_bus_phases` (lines 232–270). -/

namespace CimReaderPhases

/-- One observed (bus, phase-value) pair, as produced by scanning every
per-kind table for bus-like/phase-like column pairs.  Rows whose bus is
null are already gone (`dropna(subset=[bus_column])`). -/
abbrev Observation := String × Option String

/-- `cleaned = phase_text.replace(",", "").replace("N", "")`, then
`[phase for phase in cleaned if len(phase) == 1]` (every character has
length one, so the comprehension keeps all of `cleaned`). -/
def cleanPhase (v : Option String) : List Char :=
  (((v.getD "").toList).filter (fun c => c ≠ ',')).filter (fun c => c ≠ 'N')

/-- The accumulated `bus_phases_lookup` entry for one bus: every
character contributed by observations of that bus, in scan order.  (The
source skips empty contributions, which does not change the
concatenation.) -/
def busObservedChars (obs : List Observation) (bus : String) : List Char :=
  obs.foldl (fun acc o => if o.1 == bus then acc ++ cleanPhase o.2 else acc) []

/-- The phase list assigned to one bus row:
`sorted(set(bus_phases_lookup.get(bus_name, [])))` (sorted again, a
no-op), defaulting to `["A", "B", "C"]` when empty. -/
def assignedPhaseList (obs : List Observation) (bus : String) : List Char :=
  if ((uniqueFirst (busObservedChars obs bus)).insertionSort (· ≤ ·)).isEmpty
  then ['A', 'B', 'C']
  else (uniqueFirst (busObservedChars obs bus)).insertionSort (· ≤ ·)

/-- The `",".join(phases)` string written into the bus frame's `phase`
column. -/
def assignedPhaseString (obs : List Observation) (bus : String) : String :=
  String.intercalate "," ((assignedPhaseList obs bus).map Char.toString)

end CimReaderPhases

/-! ## CYME reader: voltage propagation
Source: `src/ditto/readers/cyme/reader.py`, `Reader.assign_bus_voltages`
(lines 313–354), `_start_queue_w_voltage_sources` (lines 356–369) and
`_create_bus_obj_map` (lines 371–380).

`bus_queue` is a Python `set` whose `pop` order is unspecified; it is
modelled as an insertion-ordered list popped from the front.  Voltages
are exact rationals. -/

namespace CymeVolt

inductive VType where
  | lineToLine | lineToGround
  deriving DecidableEq, Repr

structure BusS where
  name : String
  ratedVoltage : ℚ
  voltageType : VType
  deriving DecidableEq, Repr

structure Winding where
  ratedVoltage : ℚ
  voltageType : VType
  deriving DecidableEq, Repr

/-- A component with a `buses` attribute (the only ones indexed by
`_create_bus_obj_map`).  `className` mirrors the
`obj.__class__.__name__` string dispatch of the source; `windings` is
`obj.equipment.windings` and is only consulted for transformers. -/
structure VComp where
  name : String
  className : String
  busNames : List String
  windings : List Winding
  deriving DecidableEq, Repr

structure PhaseSourceEquip where
  voltage : ℚ
  deriving DecidableEq, Repr

/-- `VoltageSourceEquipment`: a pydantic model holding the per-phase
source records in its `sources` field. -/
structure VSourceEquip where
  sources : List PhaseSourceEquip
  deriving DecidableEq, Repr

structure VSource where
  name : String
  busName : String
  phaseCount : Nat
  equipment : VSourceEquip
  deriving DecidableEq, Repr

/-- Subscripting the equipment record itself (`vsource.equipment[0]`
in `_start_queue_w_voltage_sources`): `VoltageSourceEquipment` is a
pydantic model and defines no `__getitem__`, so every subscript raises
`TypeError`; accordingly this lookup never succeeds. -/
def vSourceEquipSubscript (_e : VSourceEquip) (_i : Nat) :
    Option PhaseSourceEquip :=
  none

def addUnique (l : List String) (x : String) : List String :=
  if x ∈ l then l else l ++ [x]

def getBus (buses : List BusS) (n : String) : Option BusS :=
  buses.find? (fun b => b.name == n)

def updateBus (buses : List BusS) (n : String) (f : BusS → BusS) :
    List BusS :=
  buses.map (fun b => if b.name == n then f b else b)

/-- `_start_queue_w_voltage_sources`: for each voltage source, set its
bus's rated voltage — `sources[0].voltage * 1.732` when the source has
more than one phase, `equipment[0].voltage` (a `TypeError`: the
equipment record is not subscriptable) otherwise — and add the bus to
the work queue. -/
def startQueueWithSources (buses : List BusS) (sources : List VSource) :
    Except String (List BusS × List String) :=
  sources.foldlM (fun (st : List BusS × List String) src => do
    let rated ←
      if src.phaseCount > 1 then
        match src.equipment.sources.head? with
        | some p => Except.ok (p.voltage * (1732/1000))
        | none => Except.error "IndexError: list index out of range"
      else
        match vSourceEquipSubscript src.equipment 0 with
        | some p => Except.ok p.voltage
        | none =>
          Except.error "TypeError: 'VoltageSourceEquipment' object is not subscriptable"
    Except.ok (updateBus st.1 src.busName (fun b => { b with ratedVoltage := rated }),
      addUnique st.2 src.busName))
    (buses, [])

/-- The transformer branch of the neighbor update: iterate the
windings with their indices and, for the winding whose index `i` equals
the terminal index `j`, assign its rated voltage and voltage type to
the neighbor bus — but only when that voltage differs from the current
bus's voltage (`if i == j and voltage != current_voltage`). -/
def xfmrUpdate (currentV : ℚ) (windings : List Winding) (j : Nat)
    (b : BusS) : BusS :=
  windings.enum.foldl (fun b iw =>
    if iw.1 = j ∧ iw.2.ratedVoltage ≠ currentV then
      { b with voltageType := iw.2.voltageType, ratedVoltage := iw.2.ratedVoltage }
    else b) b

/-- The update applied to the neighbor bus at terminal index `j` of a
connected component: the transformer branch above, or — for any other
component kind — a copy of the current bus's voltage and voltage type. -/
def neighborUpdate (currentV : ℚ) (currentT : VType) (comp : VComp)
    (j : Nat) (b : BusS) : BusS :=
  if comp.className == "DistributionTransformer" then
    xfmrUpdate currentV comp.windings j b
  else
    { b with ratedVoltage := currentV, voltageType := currentT }

structure TravState where
  buses : List BusS
  queue : List String
  observedBuses : List String
  observedComponents : List String
  deriving DecidableEq, Repr

/-- The `for j, bus in enumerate(obj.buses)` loop for one connected
component: skip the current bus, update every other terminal bus, and
queue it when not yet observed. -/
def processNeighbors (currentName : String) (currentV : ℚ)
    (currentT : VType) (comp : VComp) (st : TravState) : TravState :=
  comp.busNames.enum.foldl (fun st jb =>
    if jb.2 == currentName then st
    else
      let st := { st with
        buses := updateBus st.buses jb.2 (neighborUpdate currentV currentT comp jb.1) }
      if jb.2 ∈ st.observedBuses then st
      else { st with queue := addUnique st.queue jb.2 }) st

/-- One iteration of the `while bus_queue:` loop: pop a bus, mark it
observed, and process every not-yet-observed component incident on it
(per the `bus_obj_map` adjacency index). -/
def stepOnce (comps : List VComp) (st : TravState) : TravState :=
  match st.queue with
  | [] => st
  | currentName :: rest =>
    let st := { st with queue := rest }
    match getBus st.buses currentName with
    | none => st
    | some current =>
      let currentV := current.ratedVoltage
      let currentT := current.voltageType
      let st := { st with observedBuses := addUnique st.observedBuses currentName }
      let conn := comps.filter (fun c => currentName ∈ c.busNames)
      conn.foldl (fun st comp =>
        if comp.name ∈ st.observedComponents then st
        else
          let st := { st with observedComponents := st.observedComponents ++ [comp.name] }
          processNeighbors currentName currentV currentT comp st) st

def runTraversal (comps : List VComp) : Nat → TravState → TravState
  | 0, st => st
  | fuel + 1, st =>
    if st.queue.isEmpty then st
    else runTraversal comps fuel (stepOnce comps st)

/-- Enough fuel for the loop: every queued name comes from a source bus
or a component terminal, and a popped bus is never re-queued. -/
def travFuel (comps : List VComp) (sources : List VSource) : Nat :=
  sources.length + (comps.map (fun c => c.busNames.length)).sum + 1

/-- `assign_bus_voltages`: seed the queue from the voltage sources,
then run the traversal to completion. -/
def assignBusVoltages (buses : List BusS) (comps : List VComp)
    (sources : List VSource) : Except String (List BusS) := do
  let (buses', queue) ← startQueueWithSources buses sources
  let st := runTraversal comps (travFuel comps sources)
    ⟨buses', queue, [], []⟩
  Except.ok st.buses

end CymeVolt

/-! ## CIM writer: core-graph population
Source: `src/ditto/writers/cim_iec_61968_13/write.py`,
`Writer._populate_core_graph`, and the per-kind emitters under
`equipment_emitters/`.  The XML payload of each emitter is abstracted
to the list of identified objects it creates, tagged with the owning
component's kind and name; the bus-membership guards (at the call site
for sources/loads/branches/transformers/regulators, inside the emitter
for capacitors/switches/solar/batteries/fuses) are mirrored exactly. -/

namespace CimWriter

inductive WKind where
  | bus | source | load | branch | transformer | regulator
  | capacitor | switch | solar | battery | fuse
  deriving DecidableEq, Repr

/-- A canonical component as the writer sees it: `bus` is the single
`bus` attribute (sources, loads, capacitors, solar, batteries), and
`buses` the `buses` attribute (branches, transformers, regulators,
switches, fuses). -/
structure WComp where
  kind : WKind
  name : String
  bus : Option String
  buses : List String
  deriving DecidableEq, Repr

/-- Whether a kind connects through the single `bus` attribute. -/
def singleBusKind : WKind → Bool
  | .source | .load | .capacitor | .solar | .battery => true
  | _ => false

/-- The endpoint buses of a component, per its kind's attribute: the
single `bus` for shunt-connected kinds, and the two terminal buses
(`buses[0]`, `buses[1]` — the only ones the emitters connect) for
series kinds. -/
def endpoints (c : WComp) : List String :=
  if c.kind == .bus then []
  else if singleBusKind c.kind then c.bus.toList
  else c.buses.take 2

/-- One emitted identified object, tagged with its owner. -/
structure Emitted where
  kind : WKind
  tag : String
  name : String
  deriving DecidableEq, Repr

/-- The names registered in `bus_node_ids` by `_create_bus_objects`:
one entry per bus component. -/
def busIdsOf (comps : List WComp) : List String :=
  (comps.filter (fun c => c.kind == .bus)).map (fun c => c.name)

/-- The endpoint guard of one component's emission: buses always pass;
sources/loads/capacitors/solar/batteries require their `bus` to be
among the emitted bus ids (checked at the call site for sources and
loads, at the top of the emitter for the rest);
branches/transformers/regulators/switches/fuses require at least two
buses (the emitters' `len(buses) < 2` guard) whose first two are both
among the emitted bus ids. -/
def emitGuard (busIds : List String) (c : WComp) : Bool :=
  match c.kind with
  | .bus => true
  | .source | .load | .capacitor | .solar | .battery =>
    match c.bus with
    | some b => b ∈ busIds
    | none => false
  | .branch | .transformer | .regulator | .switch | .fuse =>
    match c.buses with
    | b1 :: b2 :: _ => b1 ∈ busIds && b2 ∈ busIds
    | _ => false

/-- The identified objects one component's emitter creates (payload
abstracted to the top-level element and the terminal, tagged with the
owning component). -/
def emitPayload (c : WComp) : List Emitted :=
  match c.kind with
  | .bus =>
    [⟨.bus, "ConnectivityNode", c.name⟩, ⟨.bus, "Location", c.name⟩,
      ⟨.bus, "PositionPoint", c.name⟩]
  | .source => [⟨.source, "EnergySource", c.name⟩, ⟨.source, "Terminal", c.name⟩]
  | .load => [⟨.load, "EnergyConsumer", c.name⟩, ⟨.load, "Terminal", c.name⟩]
  | .branch => [⟨.branch, "ACLineSegment", c.name⟩, ⟨.branch, "Terminal", c.name⟩]
  | .transformer =>
    [⟨.transformer, "PowerTransformer", c.name⟩, ⟨.transformer, "Terminal", c.name⟩]
  | .regulator =>
    [⟨.regulator, "RatioTapChanger", c.name⟩, ⟨.regulator, "Terminal", c.name⟩]
  | .capacitor =>
    [⟨.capacitor, "LinearShuntCompensator", c.name⟩, ⟨.capacitor, "Terminal", c.name⟩]
  | .switch => [⟨.switch, "LoadBreakSwitch", c.name⟩, ⟨.switch, "Terminal", c.name⟩]
  | .solar =>
    [⟨.solar, "PowerElectronicsConnection", c.name⟩, ⟨.solar, "Terminal", c.name⟩]
  | .battery => [⟨.battery, "BatteryUnit", c.name⟩, ⟨.battery, "Terminal", c.name⟩]
  | .fuse => [⟨.fuse, "Fuse", c.name⟩, ⟨.fuse, "Terminal", c.name⟩]

/-- What one component contributes to the output graph: its payload
when its endpoint guard passes, nothing otherwise. -/
def emitFor (busIds : List String) (c : WComp) : List Emitted :=
  if emitGuard busIds c then emitPayload c else []

/-- The fixed emission order of `_populate_core_graph`. -/
def emissionOrder : List WKind :=
  [.bus, .source, .load, .branch, .transformer, .regulator,
    .capacitor, .switch, .solar, .battery, .fuse]

/-- `_populate_core_graph`: partition the components by kind, emit the
buses first, then each kind's components in order, applying the
endpoint guards. -/
def populateCoreGraph (comps : List WComp) : List Emitted :=
  let busIds := busIdsOf comps
  emissionOrder.flatMap (fun k =>
    (comps.filter (fun c => c.kind == k)).flatMap (emitFor busIds))

end CimWriter

/-! ## CYME reader: parallel-branch serialization
Source: `src/ditto/readers/cyme/reader.py`,
`Reader.serialize_parallel_branches` (lines 382–431),
`Reader._get_parallel_components` (lines 433–455) and
`Reader._sort_parallel_components` (lines 457–480).

A component is one edge of the undirected multigraph, tagged with its
kind (the component class) and connecting the unordered pair
`{b0, b1}`.  In the CYME reader's system the transformer-like classes
(`isinstance(…, DistributionTransformer)`) are exactly the
`DistributionTransformer` instances.  The in-place bus mutations of the
source are modelled by rebuilding the component list; synthetic buses
are created through `copy_component(..., attach=True)`, which fails on
a name collision, so a completed run has all generated names fresh. -/

namespace CymeSerial

inductive CKind where
  | transformer | branch | switch | fuse | recloser
  deriving DecidableEq, Repr

/-- A two-terminal component edge. -/
structure PComp where
  kind : CKind
  name : String
  b0 : String
  b1 : String
  deriving DecidableEq, Repr

/-- `isinstance(c, DistributionTransformer)` in the CYME system. -/
def isXfmr (c : PComp) : Bool := c.kind == .transformer

/-- Two components connect the same unordered bus pair
(`tuple(sorted((u, v)))` grouping of `_get_parallel_components`). -/
def sameEdge (c d : PComp) : Bool :=
  (c.b0 == d.b0 && c.b1 == d.b1) || (c.b0 == d.b1 && c.b1 == d.b0)

/-- All components on the same unordered bus pair as `r`. -/
def groupOf (cs : List PComp) (r : PComp) : List PComp :=
  cs.filter (fun c => sameEdge r c)

/-- A bus-pair group is parallel when it carries more than one distinct
component kind (`len(set(... "type" ...)) > 1`). -/
def isParallelGroup (g : List PComp) : Bool :=
  match g with
  | [] => false
  | c :: rest => rest.any (fun d => d.kind ≠ c.kind)

/-- First occurrence of each unordered bus pair, in list order
(the insertion order of the `edges` dict). -/
def edgeReps (cs : List PComp) : List PComp :=
  cs.foldl (fun acc c => if acc.any (fun r => sameEdge r c) then acc else acc ++ [c]) []

/-- `_get_parallel_components`: the groups of components sharing a bus
pair that carries more than one distinct kind. -/
def parallelGroups (cs : List PComp) : List (List PComp) :=
  ((edgeReps cs).map (groupOf cs)).filter (fun g => isParallelGroup g)

def inParallel (cs : List PComp) (c : PComp) : Bool :=
  isParallelGroup (groupOf cs c)

/-- `_sort_parallel_components`'s renaming loop: components whose
display name collides with a sibling in the group are renamed with a
running per-name index. -/
def renameDupsGo (g : List PComp) (seen : List (String × Nat)) :
    List PComp → List PComp
  | [] => []
  | c :: rest =>
    if (g.filter (fun x => x.name == c.name)).length > 1 then
      let k := (seen.lookup c.name).getD 0
      { c with name := c.name ++ "_" ++ toString k }
        :: renameDupsGo g ((c.name, k + 1) :: seen) rest
    else c :: renameDupsGo g seen rest

def renameDups (g : List PComp) : List PComp := renameDupsGo g [] g

/-- The synthetic-bus name `f"{base}_{j}_{i}"`. -/
def chainName (base : String) (j i : Nat) : String :=
  base ++ "_" ++ toString j ++ "_" ++ toString i

/-- The no-transformer chain loop (source lines 426–431), iteration
`j`: duplicate `comp.buses[1]` as a synthetic bus, reattach `comp`'s
second terminal to it and the next component's first terminal to it. -/
def chainNGo (i j : Nat) (c : PComp) : List PComp → List PComp
  | [] => [c]
  | d :: rest =>
    let nb := chainName c.b1 j i
    { c with b1 := nb } :: chainNGo i (j + 1) { d with b0 := nb } rest

def chainN (i : Nat) : List PComp → List PComp
  | [] => []
  | c :: rest => chainNGo i 0 c rest

/-- The transformer-present chain loop (source lines 397–419) from
iteration `j ≥ 1` on: set `comp.buses[1]` to the previous component's
(fresh) first bus; for non-final components also create a synthetic bus
named after the next component and attach `comp.buses[0]` to it. -/
def chainTGo (i j : Nat) (prevB0 : String) (c : PComp) :
    List PComp → List PComp
  | [] => [{ c with b1 := prevB0 }]
  | d :: rest =>
    let nb := chainName d.name j i
    let c' := { c with b1 := prevB0, b0 := nb }
    c' :: chainTGo i (j + 1) c'.b0 d rest

/-- The transformer-present chain, iteration `j = 0` included: a single
non-transformer keeps its first bus and attaches its second to the
synthetic primary; with two or more, the first component is re-hung
between a fresh bus (named after the second component) and the primary. -/
def chainT (i : Nat) (p : String) : List PComp → List PComp
  | [] => []
  | [c] => [{ c with b1 := p }]
  | c :: d :: rest =>
    let nb := chainName d.name 0 i
    let c' := { c with b0 := nb, b1 := p }
    c' :: chainTGo i 1 c'.b0 d rest

/-- Rewriting one parallel group of index `i`: rename colliding names,
split off the transformers; with a transformer present, duplicate its
primary bus as `f"{bus}_primary"`, chain the non-transformers between
the original first bus and the synthetic primary, and reattach every
transformer between the synthetic primary and the original secondary;
otherwise chain the non-transformers with synthetic intermediate
buses. -/
def rewriteGroup (i : Nat) (g : List PComp) : List PComp :=
  match ((renameDups g).filter isXfmr).head? with
  | some t0 =>
    chainT i (t0.b0 ++ "_primary") ((renameDups g).filter (fun c => !(isXfmr c)))
      ++ ((renameDups g).filter isXfmr).map
          (fun t => { t with b0 := t0.b0 ++ "_primary", b1 := t0.b1 })
  | none => chainN i ((renameDups g).filter (fun c => !(isXfmr c)))

/-- `serialize_parallel_branches`: components not in any parallel group
are untouched; each parallel group is rewritten with its enumeration
index. -/
def serializeParallelBranches (cs : List PComp) : List PComp :=
  cs.filter (fun c => !(inParallel cs c))
    ++ (parallelGroups cs).enum.flatMap (fun ig => rewriteGroup ig.1 ig.2)

/-- The synthetic bus names one chain generates (no-transformer case):
one per consecutive pair, derived from the current second bus. -/
def chainNNames (i j : Nat) : List PComp → List String
  | [] => []
  | [_] => []
  | c :: d :: rest => chainName c.b1 j i :: chainNNames i (j + 1) (d :: rest)

/-- The synthetic bus names of the transformer-present chain: one per
consecutive pair, derived from the next component's name. -/
def chainTNames (i j : Nat) : List PComp → List String
  | [] => []
  | [_] => []
  | _ :: d :: rest => chainName d.name j i :: chainTNames i (j + 1) (d :: rest)

/-- All synthetic bus names one group rewrite creates. -/
def groupNewNames (i : Nat) (g : List PComp) : List String :=
  match ((renameDups g).filter isXfmr).head? with
  | some t0 =>
    (t0.b0 ++ "_primary")
      :: chainTNames i 0 ((renameDups g).filter (fun c => !(isXfmr c)))
  | none => chainNNames i 0 ((renameDups g).filter (fun c => !(isXfmr c)))

/-- All synthetic bus names the whole pass creates. -/
def allNewNames (cs : List PComp) : List String :=
  (parallelGroups cs).enum.flatMap (fun ig => groupNewNames ig.1 ig.2)

/-- Every bus name appearing in the pre-pass system. -/
def allBusNames (cs : List PComp) : List String :=
  cs.flatMap (fun c => [c.b0, c.b1])

end CymeSerial

/-! ## Helper lemmas -/

theorem uniqueFirst_go_mem {α : Type} [DecidableEq α] (l : List α) :
    ∀ (acc : List α) (x : α),
      x ∈ l.foldl (fun acc x => if x ∈ acc then acc else acc ++ [x]) acc
        ↔ x ∈ acc ∨ x ∈ l := by
  induction l with
  | nil => intro acc x; simp
  | cons a t ih =>
    intro acc x
    simp only [List.foldl_cons, ih, List.mem_cons]
    by_cases ha : a ∈ acc
    · simp only [if_pos ha]
      constructor
      · rintro (h | h)
        · exact Or.inl h
        · exact Or.inr (Or.inr h)
      · rintro (h | h | h)
        · exact Or.inl h
        · exact Or.inl (h ▸ ha)
        · exact Or.inr h
    · simp only [if_neg ha, List.mem_append, List.mem_singleton]
      tauto

theorem mem_uniqueFirst {α : Type} [DecidableEq α] (l : List α) (x : α) :
    x ∈ uniqueFirst l ↔ x ∈ l := by
  unfold uniqueFirst
  rw [uniqueFirst_go_mem]
  simp

theorem uniqueFirst_go_nodup {α : Type} [DecidableEq α] (l : List α) :
    ∀ acc : List α, acc.Nodup →
      (l.foldl (fun acc x => if x ∈ acc then acc else acc ++ [x]) acc).Nodup := by
  induction l with
  | nil => intro acc h; simpa using h
  | cons a t ih =>
    intro acc h
    simp only [List.foldl_cons]
    apply ih
    by_cases ha : a ∈ acc
    · simpa [ha] using h
    · simp [ha, List.nodup_append, h]

theorem uniqueFirst_nodup {α : Type} [DecidableEq α] (l : List α) :
    (uniqueFirst l).Nodup :=
  uniqueFirst_go_nodup l [] (by simp)

namespace CimQueries

theorem collectChars_eq_flatMap (vals : List RawPhase) :
    collectChars vals = vals.flatMap tokenChars := by
  suffices h : ∀ acc, vals.foldl (fun acc v => acc ++ tokenChars v) acc
      = acc ++ vals.flatMap tokenChars by
    simpa using h []
  induction vals with
  | nil => intro acc; simp
  | cons a t ih =>
    intro acc
    simp [List.foldl_cons, ih, List.flatMap_cons, List.append_assoc]

end CimQueries

/-! ## Claim theorems -/

/-- C4: phase-string canonicalization is order- and
duplication-independent: for any input token list it returns the
comma-joined subsequence of the fixed alphabet `A, B, C, N` restricted
to the phases occurring in the input (which is duplicate-free by
construction); permuting the input does not change the result, and
`["C", "A", "A"]` canonicalizes to `"A,C"`. -/
theorem claim_C4_phase_canonicalization :
    (∀ vals vals' : List CimQueries.RawPhase, vals.Perm vals' →
        CimQueries.sortedPhaseString vals = CimQueries.sortedPhaseString vals')
    ∧ (∀ vals : List CimQueries.RawPhase,
        CimQueries.phaseOrder.filter
            (fun c => c ∈ vals.flatMap CimQueries.tokenChars) ≠ [] →
        CimQueries.sortedPhaseString vals
          = some (CimQueries.commaJoin
              (CimQueries.phaseOrder.filter
                (fun c => c ∈ vals.flatMap CimQueries.tokenChars))))
    ∧ CimQueries.sortedPhaseString [some "C", some "A", some "A"] = some "A,C" := by
  refine ⟨?_, ?_, by decide⟩
  · intro vals vals' hperm
    unfold CimQueries.sortedPhaseString
    have hfilter : CimQueries.phaseOrder.filter (· ∈ CimQueries.collectChars vals)
        = CimQueries.phaseOrder.filter (· ∈ CimQueries.collectChars vals') := by
      apply List.filter_congr
      intro c _
      rw [CimQueries.collectChars_eq_flatMap, CimQueries.collectChars_eq_flatMap]
      simp only [decide_eq_decide, List.mem_flatMap]
      constructor
      · rintro ⟨v, hv, hcv⟩; exact ⟨v, hperm.mem_iff.mp hv, hcv⟩
      · rintro ⟨v, hv, hcv⟩; exact ⟨v, hperm.mem_iff.mpr hv, hcv⟩
    simp only [hfilter]
  · intro vals hne
    unfold CimQueries.sortedPhaseString
    have hfilter : CimQueries.phaseOrder.filter (· ∈ CimQueries.collectChars vals)
        = CimQueries.phaseOrder.filter
            (fun c => c ∈ vals.flatMap CimQueries.tokenChars) := by
      rw [CimQueries.collectChars_eq_flatMap]
    simp only [hfilter, List.isEmpty_iff, if_neg hne]

/-- C4 witness: the theorem applied to a transposed pair and to a
concrete input with one hypothesis discharged. -/
theorem claim_C4_phase_canonicalization_witness :
    CimQueries.sortedPhaseString [some "A", some "C"]
        = CimQueries.sortedPhaseString [some "C", some "A"]
      ∧ CimQueries.sortedPhaseString [some "B", none] = some "B" := by
  constructor
  · exact claim_C4_phase_canonicalization.1 _ _ (List.Perm.swap _ _ _)
  · have h := claim_C4_phase_canonicalization.2.1 [some "B", none] (by decide)
    rw [h]; decide

/-- C6: with the bus resolvable and both voltages strictly positive,
the winding with no explicit phase column is inferred three-phase
exactly when the winding/bus voltage ratio lies in the closed band
`[1.45, 2.05]` and single-phase (`[A]`) otherwise; an unresolvable bus
name, a failed lookup, or a non-positive voltage defaults to all three
phases. -/
theorem claim_C6_winding_phase_inference :
    (∀ (name : String) (sys : WindingEquip.BusLookup) (bv wv : ℚ),
        sys name = some bv → 0 < bv → 0 < wv →
        WindingEquip.inferPhasesFromVoltage (some name) sys wv
          = if 29/20 ≤ wv / bv ∧ wv / bv ≤ 41/20
            then [WindingEquip.Phase.A, WindingEquip.Phase.B, WindingEquip.Phase.C]
            else [WindingEquip.Phase.A])
    ∧ (∀ (sys : WindingEquip.BusLookup) (wv : ℚ),
        WindingEquip.inferPhasesFromVoltage none sys wv
          = [WindingEquip.Phase.A, WindingEquip.Phase.B, WindingEquip.Phase.C])
    ∧ (∀ (name : String) (sys : WindingEquip.BusLookup) (wv : ℚ),
        sys name = none →
        WindingEquip.inferPhasesFromVoltage (some name) sys wv
          = [WindingEquip.Phase.A, WindingEquip.Phase.B, WindingEquip.Phase.C])
    ∧ (∀ (name : String) (sys : WindingEquip.BusLookup) (bv wv : ℚ),
        sys name = some bv → (bv ≤ 0 ∨ wv ≤ 0) →
        WindingEquip.inferPhasesFromVoltage (some name) sys wv
          = [WindingEquip.Phase.A, WindingEquip.Phase.B, WindingEquip.Phase.C]) := by
  refine ⟨?_, ?_, ?_, ?_⟩
  · intro name sys bv wv hlook hbv hwv
    have hnp : ¬(bv ≤ 0 ∨ wv ≤ 0) := by push_neg; exact ⟨hbv, hwv⟩
    simp only [WindingEquip.inferPhasesFromVoltage, hlook, if_neg hnp]
  · intro sys wv; rfl
  · intro name sys wv hlook
    simp only [WindingEquip.inferPhasesFromVoltage, hlook]
  · intro name sys bv wv hlook hnp
    simp only [WindingEquip.inferPhasesFromVoltage, hlook, if_pos hnp]

/-- C6 witness: a 12.47 kV winding on a 7.2 kV bus has ratio
`1247/720 ≈ 1.73` inside the band, hence three phases. -/
theorem claim_C6_winding_phase_inference_witness :
    WindingEquip.inferPhasesFromVoltage (some "b1")
        (fun n => if n == "b1" then some 7200 else none) 12470
      = [WindingEquip.Phase.A, WindingEquip.Phase.B, WindingEquip.Phase.C] := by
  have h := claim_C6_winding_phase_inference.1 "b1"
    (fun n => if n == "b1" then some 7200 else none) 7200 12470 rfl
    (by norm_num) (by norm_num)
  rw [h]
  norm_num

/-- C7 counterexample: a `wdg_1_max_tap` column that is present with
value `0` is falsy for Python's `if row[k]:` test, so the code uses the
default `16` and produces `max_tap_pu = 1.1`, while the claim ("a tap
field present in the row is used with its given value") predicts
`1 + 0 · (0.625/100) = 1`. -/
theorem claim_C7_tap_defaults_counterexample :
    (WindingEquip.buildWindingTaps
        { normalTap := none, maxTap := some 0, minTap := none, dv := none }).maxTapPu
      = 11/10
    ∧ ((11 : ℚ)/10 ≠ 1 + 0 * ((625/1000) / 100)) := by
  constructor
  · norm_num [WindingEquip.buildWindingTaps, WindingEquip.tapValue]
  · norm_num

/-- C7 (amended): the per-unit tap quantities satisfy
`pu = 1 + step · (dv_percent/100)` and `total = max − min`, where each
tap field takes its row value when present and truthy, and the fixed
default (`normal = 0`, `max = 16`, `min = −16`, `dv = 0.625`) when the
field is absent *or present with a null/zero value*. -/
theorem claim_C7_tap_computation (row : WindingEquip.TapRow) :
    WindingEquip.buildWindingTaps row =
      { puTap := 1 + WindingEquip.tapValue row.normalTap 0
          * (WindingEquip.tapValue row.dv (625/1000) / 100)
        maxTapPu := 1 + WindingEquip.tapValue row.maxTap 16
          * (WindingEquip.tapValue row.dv (625/1000) / 100)
        minTapPu := 1 + WindingEquip.tapValue row.minTap (-16)
          * (WindingEquip.tapValue row.dv (625/1000) / 100)
        totalTaps := WindingEquip.tapValue row.maxTap 16
          - WindingEquip.tapValue row.minTap (-16) } := by
  unfold WindingEquip.buildWindingTaps
  simp [WindingEquip.TapResult.mk.injEq]
  refine ⟨by ring, by ring, by ring⟩

/-- C8: when some registered branch-impedance equipment matches the
switch's phase count, `map_equipment` returns a clone (identity key
excluded) of such a record; otherwise it raises an error naming the
switch and its phase count — and it errors exactly when no match
exists. -/
theorem claim_C8_switch_equipment_synthesis
    (registered : List SwitchEquip.BranchEquipment) (n : Nat) (sw : String) :
    ((∃ e ∈ registered, e.rMatrix.length = n) →
      ∃ e ∈ registered, e.rMatrix.length = n ∧
        SwitchEquip.mapEquipment registered n sw
          = Except.ok (SwitchEquip.cloneWithoutUuid e))
    ∧ ((¬ ∃ e ∈ registered, e.rMatrix.length = n) →
      SwitchEquip.mapEquipment registered n sw
        = Except.error ("No MatrixImpedanceBranchEquipment found for switch '"
            ++ sw ++ "' with " ++ toString n ++ " phases"))
    ∧ ((SwitchEquip.mapEquipment registered n sw).isOk = true
        ↔ ∃ e ∈ registered, e.rMatrix.length = n) := by
  rcases hfilt : registered.filter (fun e => e.rMatrix.length == n) with _ | ⟨e, rest⟩
  · have hmap : SwitchEquip.mapEquipment registered n sw
        = Except.error ("No MatrixImpedanceBranchEquipment found for switch '"
            ++ sw ++ "' with " ++ toString n ++ " phases") := by
      unfold SwitchEquip.mapEquipment
      rw [hfilt]
    have hnone : ¬ ∃ e ∈ registered, e.rMatrix.length = n := by
      rintro ⟨e, he, hlen⟩
      have : e ∈ registered.filter (fun e => e.rMatrix.length == n) :=
        List.mem_filter.mpr ⟨he, by simp [hlen]⟩
      rw [hfilt] at this
      cases this
    refine ⟨fun h => absurd h hnone, fun _ => hmap, ?_⟩
    rw [hmap]
    simp only [Except.isOk, Except.toBool]
    constructor
    · intro h; cases h
    · intro h; exact absurd h hnone
  · have hmap : SwitchEquip.mapEquipment registered n sw
        = Except.ok (SwitchEquip.cloneWithoutUuid e) := by
      unfold SwitchEquip.mapEquipment
      rw [hfilt]
    have hmem : e ∈ registered.filter (fun e => e.rMatrix.length == n) := by
      rw [hfilt]; exact List.mem_cons_self _ _
    have he := List.mem_filter.mp hmem
    refine ⟨fun _ => ⟨e, he.1, by simpa using he.2, hmap⟩, ?_, ?_⟩
    · intro hnone
      exact absurd ⟨e, he.1, by simpa using he.2⟩ hnone
    · rw [hmap]
      constructor
      · intro _; exact ⟨e, he.1, by simpa using he.2⟩
      · intro _; rfl

/-- C8 witness: one registered 1×1 equipment record, a one-phase
switch: construction succeeds. -/
theorem claim_C8_switch_equipment_synthesis_witness :
    (SwitchEquip.mapEquipment [⟨0, "eq1", [[1]]⟩] 1 "s1").isOk = true :=
  (claim_C8_switch_equipment_synthesis [⟨0, "eq1", [[1]]⟩] 1 "s1").2.2.mpr
    (by decide)

section UniqueFirstLemmas

variable {α : Type} [DecidableEq α]

theorem uniqueFirst_go_filter (p : α → Bool) (l : List α) :
    ∀ acc : List α,
      ((l.foldl (fun acc x => if x ∈ acc then acc else acc ++ [x]) acc).filter p)
        = (l.filter p).foldl (fun acc x => if x ∈ acc then acc else acc ++ [x])
            (acc.filter p) := by
  induction l with
  | nil => intro acc; rfl
  | cons a t ih =>
    intro acc
    simp only [List.foldl_cons]
    rw [ih (if a ∈ acc then acc else acc ++ [a])]
    by_cases hpa : p a
    · have hmem : (a ∈ acc.filter p) = (a ∈ acc) := by
        simp [List.mem_filter, hpa]
      have hfa : (if a ∈ acc then acc else acc ++ [a]).filter p
          = if a ∈ acc.filter p then acc.filter p else acc.filter p ++ [a] := by
        by_cases ha : a ∈ acc
        · simp [ha, hmem]
        · simp [ha, hmem, List.filter_append, hpa]
      rw [hfa]
      simp [List.filter_cons, hpa]
    · have hfa : (if a ∈ acc then acc else acc ++ [a]).filter p = acc.filter p := by
        by_cases ha : a ∈ acc
        · simp [ha]
        · simp [ha, List.filter_append, hpa]
      rw [hfa]
      simp [List.filter_cons, hpa]

theorem uniqueFirst_filter (p : α → Bool) (l : List α) :
    (uniqueFirst l).filter p = uniqueFirst (l.filter p) := by
  unfold uniqueFirst
  simpa using uniqueFirst_go_filter p l []

theorem uniqueFirst_go_const (v : α) :
    ∀ t : List α, (∀ x ∈ t, x = v) →
      t.foldl (fun acc x => if x ∈ acc then acc else acc ++ [x]) [v] = [v] := by
  intro t
  induction t with
  | nil => intro _; rfl
  | cons a t ih =>
    intro h
    have ha : a = v := h a (List.mem_cons_self _ _)
    simp only [List.foldl_cons, ha, List.mem_singleton, if_pos rfl]
    exact ih (fun x hx => h x (List.mem_cons_of_mem _ hx))

theorem uniqueFirst_const (l : List α) (v : α) (h : ∀ x ∈ l, x = v)
    (hne : l ≠ []) : uniqueFirst l = [v] := by
  match l, hne with
  | a :: t, _ =>
    have ha : a = v := h a (List.mem_cons_self _ _)
    unfold uniqueFirst
    simp only [List.foldl_cons, List.not_mem_nil, if_neg (List.not_mem_nil a),
      List.nil_append, ha]
    exact uniqueFirst_go_const v t (fun x hx => h x (List.mem_cons_of_mem _ hx))

theorem uniqueFirst_ne_nil (l : List α) (hne : l ≠ []) :
    uniqueFirst l ≠ [] := by
  match l, hne with
  | a :: t, _ =>
    intro hcon
    have : a ∈ uniqueFirst (a :: t) :=
      (mem_uniqueFirst _ _).mpr (List.mem_cons_self _ _)
    rw [hcon] at this
    cases this

theorem flatMap_eq_nil_of {β γ : Type} (t : List β) (g : β → List γ)
    (h : ∀ n ∈ t, g n = []) : t.flatMap g = [] := by
  induction t with
  | nil => rfl
  | cons a s ih =>
    rw [List.flatMap_cons, h a (List.mem_cons_self _ _),
      ih (fun x hx => h x (List.mem_cons_of_mem _ hx))]
    rfl

theorem flatMap_single {β γ : Type} [DecidableEq β] (names : List β)
    (g : β → List γ) (name : β) (hnd : names.Nodup) (hmem : name ∈ names)
    (hz : ∀ n ∈ names, n ≠ name → g n = []) :
    names.flatMap g = g name := by
  induction names with
  | nil => cases hmem
  | cons n t ih =>
    rw [List.flatMap_cons]
    by_cases hn : n = name
    · subst hn
      have hnin : n ∉ t := (List.nodup_cons.mp hnd).1
      have : t.flatMap g = [] := flatMap_eq_nil_of t g (fun m hm => by
        have : m ≠ n := fun h => hnin (h ▸ hm)
        exact hz m (List.mem_cons_of_mem _ hm) this)
      rw [this, List.append_nil]
    · have hmem' : name ∈ t := by
        rcases List.mem_cons.mp hmem with h | h
        · exact absurd h.symm hn
        · exact h
      rw [hz n (List.mem_cons_self _ _) hn, List.nil_append]
      exact ih (List.nodup_cons.mp hnd).2 hmem'
        (fun m hm hne => hz m (List.mem_cons_of_mem _ hm) hne)

end UniqueFirstLemmas

namespace CimQueries

theorem switchEntityOut_name (rows : List SwRow) (name : String) :
    ∀ o ∈ switchEntityOut rows name, o.switchName = name := by
  intro o ho
  unfold switchEntityOut at ho
  rcases hb : uniqueFirst ((rows.filter (fun r => r.switchName == name)).map
      (fun r => r.bus)) with _ | ⟨b1, rest⟩
  · rw [hb] at ho; cases ho
  · rcases rest with _ | ⟨b2, rest'⟩
    · rw [hb] at ho; cases ho
    · rw [hb] at ho
      simp only [List.mem_map] at ho
      rcases ho with ⟨r, hr, rfl⟩
      have hr' : r ∈ rows.filter (fun r => r.switchName == name) :=
        (mem_uniqueFirst _ _).mp hr
      have := (List.mem_filter.mp hr').2
      simpa using this

theorem lineEntityOut_name (rows : List LineRow) (name : String) :
    ∀ o ∈ lineEntityOut rows name, o.line = name := by
  intro o ho
  unfold lineEntityOut at ho
  rcases hb : uniqueFirst ((rows.filter (fun r => r.line == name)).map
      (fun r => r.bus)) with _ | ⟨b1, rest⟩
  · rw [hb] at ho; cases ho
  · rcases rest with _ | ⟨b2, rest'⟩
    · rw [hb] at ho; cases ho
    · rw [hb] at ho
      simp only [List.mem_map] at ho
      rcases ho with ⟨p, hp, rfl⟩
      have hp' : p ∈ (rows.filter (fun r => r.line == name)).map
          (fun r => (r.line, r.attrs)) := (mem_uniqueFirst _ _).mp hp
      simp only [List.mem_map] at hp'
      rcases hp' with ⟨r, hr, rfl⟩
      have := (List.mem_filter.mp hr).2
      simpa using this

end CimQueries

theorem filter_flatMap {β γ : Type} (l : List β) (g : β → List γ)
    (p : γ → Bool) :
    (l.flatMap g).filter p = l.flatMap (fun b => (g b).filter p) := by
  induction l with
  | nil => rfl
  | cons a t ih => simp [List.flatMap_cons, List.filter_append, ih]

namespace CimQueries

theorem switchEntityOut_nil (rows : List SwRow) (name : String)
    (hlen : (uniqueFirst ((rows.filter (fun r => r.switchName == name)).map
      (fun r => r.bus))).length < 2) :
    switchEntityOut rows name = [] := by
  unfold switchEntityOut
  rcases hb : uniqueFirst ((rows.filter (fun r => r.switchName == name)).map
      (fun r => r.bus)) with _ | ⟨b1, _ | ⟨b2, rest⟩⟩
  · rw [hb]
  · rw [hb]
  · rw [hb] at hlen; simp at hlen; omega

theorem lineEntityOut_nil (rows : List LineRow) (name : String)
    (hlen : (uniqueFirst ((rows.filter (fun r => r.line == name)).map
      (fun r => r.bus))).length < 2) :
    lineEntityOut rows name = [] := by
  unfold lineEntityOut
  rcases hb : uniqueFirst ((rows.filter (fun r => r.line == name)).map
      (fun r => r.bus)) with _ | ⟨b1, _ | ⟨b2, rest⟩⟩
  · rw [hb]
  · rw [hb]
  · rw [hb] at hlen; simp at hlen; omega

end CimQueries

/-- C5 counterexample: a load-break switch whose terminal rows
reference *three* distinct buses is not dropped — the reduction keeps
it, using the first two distinct buses — so the reduction demands *at
least* two distinct buses, not exactly two. -/
theorem claim_C5_exactly_two_counterexample :
    CimQueries.querySwitchReduce
        [⟨"s", "a", "x"⟩, ⟨"s", "a", "y"⟩, ⟨"s", "a", "z"⟩]
      = ([⟨"s", "a", "x", "y"⟩], [])
    ∧ (uniqueFirst (([⟨"s", "a", "x"⟩, ⟨"s", "a", "y"⟩,
          (⟨"s", "a", "z"⟩ : CimQueries.SwRow)].filter
            (fun r => r.switchName == "s")).map (fun r => r.bus))).length = 3 := by
  constructor
  · rfl
  · rfl

/-- C5 (amended): an entity (switch or AC line segment) whose terminal
rows reference fewer than two distinct buses contributes no reduced row
and one logged warning, while the remaining entities are processed
normally; an entity with two or more distinct buses whose rows agree on
the scalar columns is reshaped into exactly one reduced row whose
`bus_1`/`bus_2` are the first two distinct buses (buses beyond the
first two are ignored). -/
theorem claim_C5_two_terminal_reduction :
    (∀ (rows : List CimQueries.SwRow) (name : String),
      (uniqueFirst ((rows.filter (fun r => r.switchName == name)).map
          (fun r => r.bus))).length < 2 →
      (∀ o ∈ (CimQueries.querySwitchReduce rows).1, o.switchName ≠ name)
      ∧ (name ∈ rows.map (fun r => r.switchName) →
          ("Switch '" ++ name ++ "' has fewer than 2 buses ("
            ++ toString (uniqueFirst ((rows.filter
                (fun r => r.switchName == name)).map (fun r => r.bus))).length
            ++ "), skipping") ∈ (CimQueries.querySwitchReduce rows).2))
    ∧ (∀ (rows : List CimQueries.SwRow) (name : String) (b1 b2 : String)
        (rest : List String) (a : String),
      uniqueFirst ((rows.filter (fun r => r.switchName == name)).map
          (fun r => r.bus)) = b1 :: b2 :: rest →
      rows.filter (fun r => r.switchName == name) ≠ [] →
      (∀ r ∈ rows.filter (fun r => r.switchName == name), r.attrs = a) →
      (CimQueries.querySwitchReduce rows).1.filter
          (fun o => o.switchName == name)
        = [⟨name, a, b1, b2⟩])
    ∧ (∀ (rows : List CimQueries.LineRow) (name : String),
      (uniqueFirst ((rows.filter (fun r => r.line == name)).map
          (fun r => r.bus))).length < 2 →
      (∀ o ∈ (CimQueries.queryLinesReduce rows).1, o.line ≠ name)
      ∧ (name ∈ rows.map (fun r => r.line) →
          ("Line '" ++ name ++ "' has fewer than 2 buses ("
            ++ toString (uniqueFirst ((rows.filter
                (fun r => r.line == name)).map (fun r => r.bus))).length
            ++ "), skipping") ∈ (CimQueries.queryLinesReduce rows).2))
    ∧ (∀ (rows : List CimQueries.LineRow) (name : String) (b1 b2 : String)
        (rest : List String) (a : String),
      uniqueFirst ((rows.filter (fun r => r.line == name)).map
          (fun r => r.bus)) = b1 :: b2 :: rest →
      rows.filter (fun r => r.line == name) ≠ [] →
      (∀ r ∈ rows.filter (fun r => r.line == name), r.attrs = a) →
      (CimQueries.queryLinesReduce rows).1.filter (fun o => o.line == name)
        = [⟨name, a, b1,
            CimQueries.sortedPhaseString (CimQueries.linePhasesOf rows name b1),
            b2,
            CimQueries.sortedPhaseString (CimQueries.linePhasesOf rows name b2)⟩]) := by
  refine ⟨?_, ?_, ?_, ?_⟩
  · -- switches: drop-and-warn
    intro rows name hlen
    constructor
    · intro o ho hname
      have ho' := (mem_uniqueFirst _ _).mp ho
      rcases List.mem_flatMap.mp ho' with ⟨n, _, hon⟩
      have := CimQueries.switchEntityOut_name rows n o hon
      rw [this] at hname
      subst hname
      rw [CimQueries.switchEntityOut_nil rows n hlen] at hon
      cases hon
    · intro hmem
      apply List.mem_filterMap.mpr
      refine ⟨name, (mem_uniqueFirst _ _).mpr hmem, ?_⟩
      unfold CimQueries.switchEntityWarn
      rw [if_pos hlen]
  · -- switches: keep exactly one row
    intro rows name b1 b2 rest a hb hne ha
    have hv : ∀ r ∈ uniqueFirst (rows.filter (fun r => r.switchName == name)),
        ({ switchName := r.switchName, attrs := r.attrs, bus1 := b1, bus2 := b2 }
          : CimQueries.SwOut) = ⟨name, a, b1, b2⟩ := by
      intro r hr
      have hr' := (mem_uniqueFirst _ _).mp hr
      have h1 := (List.mem_filter.mp hr').2
      have h2 := ha r hr'
      simp only [beq_iff_eq] at h1
      rw [h1, h2]
    have hout : CimQueries.switchEntityOut rows name
        = (uniqueFirst (rows.filter (fun r => r.switchName == name))).map
            (fun r => (⟨r.switchName, r.attrs, b1, b2⟩ : CimQueries.SwOut)) := by
      unfold CimQueries.switchEntityOut
      rw [hb]
    have hconst : ∀ o ∈ CimQueries.switchEntityOut rows name,
        o = (⟨name, a, b1, b2⟩ : CimQueries.SwOut) := by
      intro o ho
      rw [hout] at ho
      rcases List.mem_map.mp ho with ⟨r, hr, rfl⟩
      exact hv r hr
    have hnemem : name ∈ rows.map (fun r => r.switchName) := by
      rcases List.exists_mem_of_ne_nil _ hne with ⟨r, hr⟩
      have h1 := List.mem_filter.mp hr
      have h2 := h1.2
      simp only [beq_iff_eq] at h2
      exact h2 ▸ List.mem_map_of_mem _ h1.1
    have hnames : name ∈ uniqueFirst (rows.map (fun r => r.switchName)) :=
      (mem_uniqueFirst _ _).mpr hnemem
    have hfmap : ((uniqueFirst (rows.map (fun r => r.switchName))).flatMap
          (CimQueries.switchEntityOut rows)).filter (fun o => o.switchName == name)
        = CimQueries.switchEntityOut rows name := by
      rw [filter_flatMap]
      rw [flatMap_single _ _ name (uniqueFirst_nodup _) hnames]
      · apply List.filter_eq_self.mpr
        intro o ho
        simp [CimQueries.switchEntityOut_name rows name o ho]
      · intro n _ hn
        apply List.filter_eq_nil_iff.mpr
        intro o ho
        simp [CimQueries.switchEntityOut_name rows n o ho, hn]
    have : (CimQueries.querySwitchReduce rows).1.filter
        (fun o => o.switchName == name)
        = uniqueFirst (CimQueries.switchEntityOut rows name) := by
      unfold CimQueries.querySwitchReduce
      rw [uniqueFirst_filter, hfmap]
    rw [this]
    apply uniqueFirst_const _ _ hconst
    rw [hout]
    intro hmap
    rcases List.map_eq_nil_iff.mp hmap with h
    exact uniqueFirst_ne_nil _ hne h
  · -- lines: drop-and-warn
    intro rows name hlen
    constructor
    · intro o ho hname
      rcases List.mem_flatMap.mp ho with ⟨n, _, hon⟩
      have := CimQueries.lineEntityOut_name rows n o hon
      rw [this] at hname
      subst hname
      rw [CimQueries.lineEntityOut_nil rows n hlen] at hon
      cases hon
    · intro hmem
      apply List.mem_filterMap.mpr
      refine ⟨name, (mem_uniqueFirst _ _).mpr hmem, ?_⟩
      unfold CimQueries.lineEntityWarn
      rw [if_pos hlen]
  · -- lines: keep exactly one row
    intro rows name b1 b2 rest a hb hne ha
    have hv : ∀ p ∈ (rows.filter (fun r => r.line == name)).map
        (fun r => (r.line, r.attrs)), p = (name, a) := by
      intro p hp
      rcases List.mem_map.mp hp with ⟨r, hr, rfl⟩
      have h1 := (List.mem_filter.mp hr).2
      have h2 := ha r hr
      simp only [beq_iff_eq] at h1
      rw [h1, h2]
    have hout : CimQueries.lineEntityOut rows name
        = (uniqueFirst ((rows.filter (fun r => r.line == name)).map
            (fun r => (r.line, r.attrs)))).map (fun p =>
          { line := p.1, attrs := p.2,
            bus1 := b1,
            phases1 := CimQueries.sortedPhaseString
              (CimQueries.linePhasesOf rows name b1),
            bus2 := b2,
            phases2 := CimQueries.sortedPhaseString
              (CimQueries.linePhasesOf rows name b2) }) := by
      unfold CimQueries.lineEntityOut
      rw [hb]
    have hpairs : uniqueFirst ((rows.filter (fun r => r.line == name)).map
        (fun r => (r.line, r.attrs))) = [(name, a)] := by
      apply uniqueFirst_const _ _ hv
      intro hmap'
      rw [List.map_eq_nil_iff] at hmap'
      rcases List.exists_mem_of_ne_nil _ hne with ⟨r, hr⟩
      rw [hmap'] at hr
      cases hr
    have hnemem : name ∈ rows.map (fun r => r.line) := by
      rcases List.exists_mem_of_ne_nil _ hne with ⟨r, hr⟩
      have h1 := List.mem_filter.mp hr
      have h2 := h1.2
      simp only [beq_iff_eq] at h2
      exact h2 ▸ List.mem_map_of_mem _ h1.1
    have hnames : name ∈ uniqueFirst (rows.map (fun r => r.line)) :=
      (mem_uniqueFirst _ _).mpr hnemem
    have hfmap : ((uniqueFirst (rows.map (fun r => r.line))).flatMap
          (CimQueries.lineEntityOut rows)).filter (fun o => o.line == name)
        = CimQueries.lineEntityOut rows name := by
      rw [filter_flatMap]
      rw [flatMap_single _ _ name (uniqueFirst_nodup _) hnames]
      · apply List.filter_eq_self.mpr
        intro o ho
        simp [CimQueries.lineEntityOut_name rows name o ho]
      · intro n _ hn
        apply List.filter_eq_nil_iff.mpr
        intro o ho
        simp [CimQueries.lineEntityOut_name rows n o ho, hn]
    show ((uniqueFirst (rows.map (fun r => r.line))).flatMap
        (CimQueries.lineEntityOut rows)).filter (fun o => o.line == name) = _
    rw [hfmap, hout, hpairs]
    rfl

theorem pairwise_mem_cases {α : Type} {P : α → α → Prop} :
    ∀ {l : List α}, l.Pairwise P → ∀ {a b : α}, a ∈ l → b ∈ l →
      a = b ∨ P a b ∨ P b a := by
  intro l hp
  induction hp with
  | nil => intro a b ha _; cases ha
  | cons hhead _ ih =>
    intro a b ha hb
    rcases List.mem_cons.mp ha with rfl | ha'
    · rcases List.mem_cons.mp hb with rfl | hb'
      · exact Or.inl rfl
      · exact Or.inr (Or.inl (hhead b hb'))
    · rcases List.mem_cons.mp hb with rfl | hb'
      · exact Or.inr (Or.inr (hhead a ha'))
      · exact ih ha' hb'

namespace CimWriter

theorem emitFor_owner (ids : List String) (c : WComp) :
    ∀ e ∈ emitFor ids c, e.kind = c.kind ∧ e.name = c.name := by
  intro e he
  unfold emitFor at he
  rcases hg : emitGuard ids c with _ | _
  · rw [hg] at he; simp at he
  · rw [hg] at he
    simp only [if_pos] at he
    rcases c with ⟨k, nm, bus, buses⟩
    cases k <;>
      simp only [emitPayload, List.mem_cons, List.not_mem_nil, or_false] at he <;>
      rcases he with rfl | rfl | rfl <;> exact ⟨rfl, rfl⟩

theorem emitGuard_false (ids : List String) (c : WComp)
    (hkind : c.kind ≠ WKind.bus)
    (hmiss : ∃ b ∈ endpoints c, b ∉ ids) : emitGuard ids c = false := by
  rcases c with ⟨k, nm, bus, buses⟩
  rcases hmiss with ⟨b, hbe, hbn⟩
  cases k
  case bus => exact absurd rfl hkind
  case source | load | capacitor | solar | battery =>
    rcases bus with _ | b'
    · simp [endpoints, singleBusKind] at hbe
    · simp [endpoints, singleBusKind] at hbe
      subst hbe
      simp only [emitGuard]
      simpa using hbn
  case branch | transformer | regulator | switch | fuse =>
    rcases buses with _ | ⟨b1, _ | ⟨b2, rest⟩⟩
    · simp [endpoints, singleBusKind] at hbe
    · simp only [emitGuard]
    · simp [endpoints, singleBusKind] at hbe
      simp only [emitGuard, Bool.and_eq_false_iff]
      rcases hbe with rfl | rfl
      · exact Or.inl (by simpa using hbn)
      · exact Or.inr (by simpa using hbn)

theorem emitFor_eq_nil (ids : List String) (c : WComp)
    (hkind : c.kind ≠ WKind.bus)
    (hmiss : ∃ b ∈ endpoints c, b ∉ ids) : emitFor ids c = [] := by
  unfold emitFor
  rw [emitGuard_false ids c hkind hmiss]
  rfl

end CimWriter

/-- C9: during CIM emission, every supported non-bus component with an
endpoint bus that is not among the emitted buses is silently skipped —
the output graph carries no element owned by it, and emission (a total
function) raises no error — uniformly for sources, loads, branches,
transformers, regulators, capacitors, switches, solar, batteries, and
fuses.  (Component names are unique within a kind, as the registry
enforces.) -/
theorem claim_C9_writer_skips_missing_endpoints
    (comps : List CimWriter.WComp) (c : CimWriter.WComp)
    (hc : c ∈ comps) (hkind : c.kind ≠ CimWriter.WKind.bus)
    (hnd : comps.Pairwise (fun a b => a.kind = b.kind → a.name ≠ b.name))
    (hmiss : ∃ b ∈ CimWriter.endpoints c, b ∉ CimWriter.busIdsOf comps) :
    ∀ e ∈ CimWriter.populateCoreGraph comps,
      ¬(e.kind = c.kind ∧ e.name = c.name) := by
  intro e he ⟨hek, hen⟩
  unfold CimWriter.populateCoreGraph at he
  rcases List.mem_flatMap.mp he with ⟨k, _, hek'⟩
  rcases List.mem_flatMap.mp hek' with ⟨c', hc', hec'⟩
  have hc'mem : c' ∈ comps := (List.mem_filter.mp hc').1
  have howner := CimWriter.emitFor_owner (CimWriter.busIdsOf comps) c' e hec'
  have hkk : c'.kind = c.kind := howner.1 ▸ hek
  have hnn : c'.name = c.name := howner.2 ▸ hen
  have hcc : c' = c := by
    rcases pairwise_mem_cases hnd hc'mem hc with h | h | h
    · exact h
    · exact absurd hnn (h hkk)
    · exact absurd hnn.symm (h hkk.symm)
  subst hcc
  rw [CimWriter.emitFor_eq_nil _ c' hkind hmiss] at hec'
  cases hec'

/-- C9 witness: a load whose bus `bX` is not among the emitted buses
contributes no element. -/
theorem claim_C9_writer_skips_missing_endpoints_witness :
    (CimWriter.populateCoreGraph
        [⟨.bus, "b1", none, []⟩, ⟨.load, "ld1", some "bX", []⟩]).all
      (fun e => decide (¬(e.kind = CimWriter.WKind.load ∧ e.name = "ld1")))
      = true := by
  have h := claim_C9_writer_skips_missing_endpoints
    [⟨.bus, "b1", none, []⟩, ⟨.load, "ld1", some "bX", []⟩]
    ⟨.load, "ld1", some "bX", []⟩
    (by decide) (by decide) (by decide)
    ⟨"bX", by decide, by decide⟩
  rw [List.all_eq_true]
  intro e he
  exact decide_eq_true (h e he)

namespace CimReaderPhases

theorem busObservedChars_eq (obs : List Observation) (bus : String) :
    busObservedChars obs bus
      = (obs.filter (fun o => o.1 == bus)).flatMap (fun o => cleanPhase o.2) := by
  suffices h : ∀ acc, obs.foldl
      (fun acc o => if o.1 == bus then acc ++ cleanPhase o.2 else acc) acc
      = acc ++ (obs.filter (fun o => o.1 == bus)).flatMap (fun o => cleanPhase o.2) by
    simpa [busObservedChars] using h []
  induction obs with
  | nil => intro acc; simp
  | cons o t ih =>
    intro acc
    simp only [List.foldl_cons]
    by_cases ho : (o.1 == bus) = true
    · rw [if_pos ho, ih]
      simp [List.filter_cons, ho, List.flatMap_cons, List.append_assoc]
    · rw [if_neg ho, ih]
      simp [List.filter_cons, ho]

theorem not_mem_cleanPhase_N (v : Option String) : 'N' ∉ cleanPhase v := by
  intro h
  have := List.mem_filter.mp h
  simp at this

theorem mem_cleanPhase (v : Option String) (ch : Char) (h : ch ∈ cleanPhase v) :
    ch ∈ (v.getD "").toList ∧ ch ≠ ',' ∧ ch ≠ 'N' := by
  have h1 := List.mem_filter.mp h
  have h2 := List.mem_filter.mp h1.1
  refine ⟨h2.1, by simpa using h2.2, by simpa using h1.2⟩

end CimReaderPhases

/-- C10 counterexample: a phase observation `"D"` for bus `b` passes
through `_set_bus_phases` untouched (only `','` and `'N'` are
stripped), so the assigned phase set is `{D}`, which is not a subset of
`{A, B, C}`. -/
theorem claim_C10_bus_phase_counterexample :
    CimReaderPhases.assignedPhaseList [("b", some "D")] "b" = ['D']
    ∧ 'D' ∉ ['A', 'B', 'C'] := by
  constructor
  · decide
  · decide

/-- C10 (amended): the bus-phase assignment never emits the neutral
marker `N` and always produces a sorted, duplicate-free phase list,
defaulting to `A, B, C` when no (non-neutral) phase was observed — in
particular when every observation for the bus is `N`; and provided
every observed phase value is composed of characters among
`{A, B, C, N}` and commas, the assigned list is a subset of
`{A, B, C}`. -/
theorem claim_C10_bus_phase_assignment
    (obs : List CimReaderPhases.Observation) (bus : String) :
    'N' ∉ CimReaderPhases.assignedPhaseList obs bus
    ∧ (CimReaderPhases.assignedPhaseList obs bus).Sorted (· ≤ ·)
    ∧ (CimReaderPhases.assignedPhaseList obs bus).Nodup
    ∧ (CimReaderPhases.busObservedChars obs bus = [] →
        CimReaderPhases.assignedPhaseList obs bus = ['A', 'B', 'C'])
    ∧ ((∀ o ∈ obs, ∀ ch ∈ ((o.2.getD "").toList),
          ch ∈ ['A', 'B', 'C', 'N', ',']) →
        ∀ ch ∈ CimReaderPhases.assignedPhaseList obs bus, ch ∈ ['A', 'B', 'C'])
    ∧ CimReaderPhases.assignedPhaseString
        [("b", some "N"), ("b", some "B,A,N")] "b" = "A,B" := by
  have hmemsort : ∀ ch : Char,
      ch ∈ (uniqueFirst (CimReaderPhases.busObservedChars obs bus)).insertionSort
          (· ≤ ·)
        ↔ ch ∈ CimReaderPhases.busObservedChars obs bus := by
    intro ch
    rw [(List.perm_insertionSort (· ≤ ·)
      (uniqueFirst (CimReaderPhases.busObservedChars obs bus))).mem_iff]
    exact mem_uniqueFirst _ _
  have hobsmem : ∀ ch ∈ CimReaderPhases.busObservedChars obs bus,
      ∃ o ∈ obs, o.1 = bus ∧ ch ∈ CimReaderPhases.cleanPhase o.2 := by
    intro ch hch
    rw [CimReaderPhases.busObservedChars_eq] at hch
    rcases List.mem_flatMap.mp hch with ⟨o, ho, hcho⟩
    have h1 := List.mem_filter.mp ho
    exact ⟨o, h1.1, by simpa using h1.2, hcho⟩
  unfold CimReaderPhases.assignedPhaseList
  by_cases hempty : ((uniqueFirst
      (CimReaderPhases.busObservedChars obs bus)).insertionSort
        (· ≤ ·)).isEmpty = true
  case pos =>
    -- empty: the A,B,C default
    rw [if_pos hempty]
    refine ⟨by decide, by decide, by decide, fun _ => rfl, ?_, by decide⟩
    intro _ ch hch
    simpa using hch
  case neg =>
    -- non-empty: the sorted de-duplicated observed phases
    rw [if_neg hempty]
    refine ⟨?_, ?_, ?_, ?_, ?_, by decide⟩
    · intro hN
      rcases hobsmem 'N' ((hmemsort 'N').mp hN) with ⟨o, _, _, hclean⟩
      exact CimReaderPhases.not_mem_cleanPhase_N o.2 hclean
    · exact List.sorted_insertionSort (· ≤ ·) _
    · exact ((List.perm_insertionSort (· ≤ ·) _).nodup_iff).mpr
        (uniqueFirst_nodup _)
    · intro hnil
      rw [hnil] at hempty
      simp [uniqueFirst] at hempty
    · intro hdom ch hch
      rcases hobsmem ch ((hmemsort ch).mp hch) with ⟨o, ho, _, hclean⟩
      have h1 := CimReaderPhases.mem_cleanPhase o.2 ch hclean
      have := hdom o ho ch h1.1
      rcases h1 with ⟨_, hc, hN⟩
      simp only [List.mem_cons, List.not_mem_nil, or_false] at this ⊢
      rcases this with h | h | h | h | h
      · exact Or.inl h
      · exact Or.inr (Or.inl h)
      · exact Or.inr (Or.inr h)
      · exact absurd h hN
      · exact absurd h hc

/-- C10 witness: the amended statement applied to a bus with one
`"A,N"` observation, its domain hypothesis discharged. -/
theorem claim_C10_bus_phase_assignment_witness :
    'N' ∉ CimReaderPhases.assignedPhaseList [("b", some "A,N")] "b"
    ∧ ∀ ch ∈ CimReaderPhases.assignedPhaseList [("b", some "A,N")] "b",
        ch ∈ ['A', 'B', 'C'] := by
  have h := claim_C10_bus_phase_assignment [("b", some "A,N")] "b"
  exact ⟨h.1, h.2.2.2.2.1 (by decide)⟩

/-- C5 witness: a one-terminal switch is dropped; a two-terminal
switch reduces to a single `bus_1`/`bus_2` row. -/
theorem claim_C5_two_terminal_reduction_witness :
    (∀ o ∈ (CimQueries.querySwitchReduce [⟨"s", "a", "x"⟩]).1,
      o.switchName ≠ "s")
    ∧ (CimQueries.querySwitchReduce
        [⟨"s", "a", "x"⟩, ⟨"s", "a", "y"⟩]).1.filter
          (fun o => o.switchName == "s")
      = [⟨"s", "a", "x", "y"⟩] := by
  constructor
  · exact (claim_C5_two_terminal_reduction.1 [⟨"s", "a", "x"⟩] "s" (by decide)).1
  · exact claim_C5_two_terminal_reduction.2.1
      [⟨"s", "a", "x"⟩, ⟨"s", "a", "y"⟩] "s" "x" "y" [] "a"
      (by decide) (by decide) (by decide)

namespace CymeVolt

theorem xfmrFold_high (currentV : ℚ) (j : Nat) (ws : List Winding) :
    ∀ (m : Nat) (b : BusS), j < m →
      (List.enumFrom m ws).foldl (fun b iw =>
        if iw.1 = j ∧ iw.2.ratedVoltage ≠ currentV then
          { b with voltageType := iw.2.voltageType, ratedVoltage := iw.2.ratedVoltage }
        else b) b = b := by
  induction ws with
  | nil => intro m b _; rfl
  | cons w t ih =>
    intro m b hj
    simp only [List.enumFrom, List.foldl_cons]
    rw [if_neg (by rintro ⟨h, _⟩; omega)]
    exact ih (m + 1) b (by omega)

theorem xfmrFold_from (currentV : ℚ) (j : Nat) (ws : List Winding) :
    ∀ (m : Nat) (b : BusS), m ≤ j →
      (List.enumFrom m ws).foldl (fun b iw =>
        if iw.1 = j ∧ iw.2.ratedVoltage ≠ currentV then
          { b with voltageType := iw.2.voltageType, ratedVoltage := iw.2.ratedVoltage }
        else b) b
      = match ws[j - m]? with
        | some w =>
          if w.ratedVoltage ≠ currentV then
            { b with voltageType := w.voltageType, ratedVoltage := w.ratedVoltage }
          else b
        | none => b := by
  induction ws with
  | nil => intro m b _; simp
  | cons w t ih =>
    intro m b hm
    simp only [List.enumFrom, List.foldl_cons]
    by_cases hmj : m = j
    · subst hmj
      simp only [Nat.sub_self, List.getElem?_cons_zero]
      by_cases hv : w.ratedVoltage = currentV
      · rw [if_neg (by simp [hv]), if_neg (by simp [hv])]
        exact xfmrFold_high currentV m t (m + 1) _ (by omega)
      · rw [if_pos (by simp [hv]), if_pos (by simp [hv])]
        exact xfmrFold_high currentV m t (m + 1) _ (by omega)
    · have hmj' : m + 1 ≤ j := by omega
      rw [if_neg (by rintro ⟨h, _⟩; exact hmj h)]
      rw [ih (m + 1) b hmj']
      have : j - m = (j - (m + 1)) + 1 := by omega
      rw [this, List.getElem?_cons_succ]

/-- The winding loop of the transformer branch selects exactly the
winding whose index matches the terminal index, and updates the bus
only when that winding's rated voltage differs from the current bus's
voltage. -/
theorem xfmrUpdate_eq (currentV : ℚ) (ws : List Winding) (j : Nat)
    (b : BusS) :
    xfmrUpdate currentV ws j b
      = match ws[j]? with
        | some w =>
          if w.ratedVoltage ≠ currentV then
            { b with voltageType := w.voltageType, ratedVoltage := w.ratedVoltage }
          else b
        | none => b := by
  unfold xfmrUpdate
  have h := xfmrFold_from currentV j ws 0 b (Nat.zero_le j)
  simpa [List.enum] using h

end CymeVolt

/-- C1 counterexample: a three-phase source at bus `A` seeds
`A.rated_voltage = 1732`; the transformer `T1` between `A` and `B` has
winding 1 (the winding index matching terminal `B`) rated at exactly
`1732`.  The claim says `B` receives the winding's own rated voltage
(`1732`); but the code's `if i == j and voltage != current_voltage`
guard skips the assignment when the winding voltage equals the current
bus's voltage, so `B` keeps its placeholder `0 ≠ 1732`. -/
theorem claim_C1_voltage_propagation_counterexample :
    CymeVolt.assignBusVoltages
        [⟨"A", 0, .lineToLine⟩, ⟨"B", 0, .lineToLine⟩]
        [⟨"T1", "DistributionTransformer", ["A", "B"],
          [⟨1732, .lineToLine⟩, ⟨1732, .lineToLine⟩]⟩]
        [⟨"src", "A", 3, ⟨[⟨1000⟩]⟩⟩]
      = Except.ok [⟨"A", 1732, .lineToLine⟩, ⟨"B", 0, .lineToLine⟩]
    ∧ (0 : ℚ) ≠ 1732 := by
  constructor
  · have hseed : CymeVolt.startQueueWithSources
        [⟨"A", 0, .lineToLine⟩, ⟨"B", 0, .lineToLine⟩]
        [⟨"src", "A", 3, ⟨[⟨1000⟩]⟩⟩]
      = Except.ok ([⟨"A", 1732, .lineToLine⟩, ⟨"B", 0, .lineToLine⟩], ["A"]) := by
      simp [CymeVolt.startQueueWithSources, CymeVolt.updateBus, CymeVolt.addUnique]
      norm_num
      rfl
    unfold CymeVolt.assignBusVoltages
    rw [hseed]
    rfl
  · norm_num

/-- C1 (amended): for every bus popped from the queue and every
not-yet-processed incident component, a transformer assigns to the
neighbor bus the rated voltage and voltage type of its own winding
whose index matches that terminal, but *only when that winding's rated
voltage differs from the current bus's voltage* (otherwise the
neighbor bus is left unchanged); any other component kind propagates
the current bus's voltage and voltage type unchanged.  In particular a
bus fed through a non-transformer component receives the source bus's
voltage, and a transformer secondary bus whose winding voltage differs
receives its winding's own rated voltage, as in the concrete
source–line–transformer chain below. -/
theorem claim_C1_voltage_propagation :
    (∀ (currentV : ℚ) (currentT : CymeVolt.VType) (comp : CymeVolt.VComp)
        (j : Nat) (b : CymeVolt.BusS),
      comp.className = "DistributionTransformer" →
      CymeVolt.neighborUpdate currentV currentT comp j b
        = match comp.windings[j]? with
          | some w =>
            if w.ratedVoltage ≠ currentV then
              { b with voltageType := w.voltageType, ratedVoltage := w.ratedVoltage }
            else b
          | none => b)
    ∧ (∀ (currentV : ℚ) (currentT : CymeVolt.VType) (comp : CymeVolt.VComp)
        (j : Nat) (b : CymeVolt.BusS),
      comp.className ≠ "DistributionTransformer" →
      CymeVolt.neighborUpdate currentV currentT comp j b
        = { b with ratedVoltage := currentV, voltageType := currentT })
    ∧ CymeVolt.assignBusVoltages
        [⟨"A", 0, .lineToLine⟩, ⟨"B", 0, .lineToLine⟩, ⟨"C", 0, .lineToLine⟩]
        [⟨"L1", "MatrixImpedanceBranch", ["A", "B"], []⟩,
          ⟨"T1", "DistributionTransformer", ["B", "C"],
            [⟨1732, .lineToLine⟩, ⟨120, .lineToGround⟩]⟩]
        [⟨"src", "A", 3, ⟨[⟨1000⟩]⟩⟩]
      = Except.ok [⟨"A", 1732, .lineToLine⟩, ⟨"B", 1732, .lineToLine⟩,
          ⟨"C", 120, .lineToGround⟩] := by
  refine ⟨?_, ?_, ?_⟩
  · intro currentV currentT comp j b hcls
    unfold CymeVolt.neighborUpdate
    rw [if_pos (by simp [hcls])]
    exact CymeVolt.xfmrUpdate_eq currentV comp.windings j b
  · intro currentV currentT comp j b hcls
    unfold CymeVolt.neighborUpdate
    rw [if_neg (by simpa using hcls)]
  · have hseed : CymeVolt.startQueueWithSources
        [⟨"A", 0, .lineToLine⟩, ⟨"B", 0, .lineToLine⟩, ⟨"C", 0, .lineToLine⟩]
        [⟨"src", "A", 3, ⟨[⟨1000⟩]⟩⟩]
      = Except.ok ([⟨"A", 1732, .lineToLine⟩, ⟨"B", 0, .lineToLine⟩,
          ⟨"C", 0, .lineToLine⟩], ["A"]) := by
      simp [CymeVolt.startQueueWithSources, CymeVolt.updateBus, CymeVolt.addUnique]
      norm_num
      rfl
    unfold CymeVolt.assignBusVoltages
    rw [hseed]
    rfl

/-- C1 witness: the amended per-step statements applied at concrete
inputs: a transformer with a differing winding voltage rewrites the
neighbor bus to the winding's values, and a line copies the current
bus's values. -/
theorem claim_C1_voltage_propagation_witness :
    CymeVolt.neighborUpdate 1732 .lineToLine
        ⟨"T1", "DistributionTransformer", ["B", "C"],
          [⟨1732, .lineToLine⟩, ⟨120, .lineToGround⟩]⟩ 1
        ⟨"C", 0, .lineToLine⟩
      = ⟨"C", 120, .lineToGround⟩
    ∧ CymeVolt.neighborUpdate 1732 .lineToLine
        ⟨"L1", "MatrixImpedanceBranch", ["A", "B"], []⟩ 1
        ⟨"B", 0, .lineToLine⟩
      = ⟨"B", 1732, .lineToLine⟩ := by
  constructor
  · rw [claim_C1_voltage_propagation.1 1732 .lineToLine
      ⟨"T1", "DistributionTransformer", ["B", "C"],
        [⟨1732, .lineToLine⟩, ⟨120, .lineToGround⟩]⟩ 1
      ⟨"C", 0, .lineToLine⟩ rfl]
    norm_num
  · rw [claim_C1_voltage_propagation.2.1 1732 .lineToLine
      ⟨"L1", "MatrixImpedanceBranch", ["A", "B"], []⟩ 1
      ⟨"B", 0, .lineToLine⟩ (by decide)]

/-- C3 (code bug): seeding the voltage-propagation queue succeeds for a
multi-phase source — the bus receives the first phase source's voltage
scaled by 1.732 — but for a single-phase source the code evaluates
`vsource.equipment[0]` instead of `vsource.equipment.sources[0]`;
`VoltageSourceEquipment` is a pydantic model with no `__getitem__`, so
seeding raises a `TypeError` rather than assigning the unscaled phase
voltage. -/
theorem claim_C3_source_seeding_bug :
    CymeVolt.startQueueWithSources [⟨"A", 0, .lineToLine⟩]
        [⟨"src", "A", 3, ⟨[⟨1000⟩]⟩⟩]
      = Except.ok ([⟨"A", 1732, .lineToLine⟩], ["A"])
    ∧ CymeVolt.startQueueWithSources [⟨"A", 0, .lineToLine⟩]
        [⟨"src", "A", 1, ⟨[⟨1000⟩]⟩⟩]
      = Except.error "TypeError: 'VoltageSourceEquipment' object is not subscriptable" := by
  constructor
  · simp [CymeVolt.startQueueWithSources, CymeVolt.updateBus, CymeVolt.addUnique]
    norm_num
    rfl
  · rfl

namespace CymeSerial

theorem sameEdge_iff (c d : PComp) :
    sameEdge c d = true
      ↔ (c.b0 = d.b0 ∧ c.b1 = d.b1) ∨ (c.b0 = d.b1 ∧ c.b1 = d.b0) := by
  simp [sameEdge]

theorem sameEdge_refl (c : PComp) : sameEdge c c = true := by
  simp [sameEdge]

theorem sameEdge_symm {c d : PComp} (h : sameEdge c d = true) :
    sameEdge d c = true := by
  rw [sameEdge_iff] at h ⊢
  rcases h with ⟨h1, h2⟩ | ⟨h1, h2⟩
  · exact Or.inl ⟨h1.symm, h2.symm⟩
  · exact Or.inr ⟨h2.symm, h1.symm⟩

theorem sameEdge_trans {c d e : PComp} (h1 : sameEdge c d = true)
    (h2 : sameEdge d e = true) : sameEdge c e = true := by
  rw [sameEdge_iff] at h1 h2 ⊢
  rcases h1 with ⟨a1, a2⟩ | ⟨a1, a2⟩ <;> rcases h2 with ⟨b1, b2⟩ | ⟨b1, b2⟩
  · exact Or.inl ⟨a1.trans b1, a2.trans b2⟩
  · exact Or.inr ⟨a1.trans b1, a2.trans b2⟩
  · exact Or.inr ⟨a1.trans b2, a2.trans b1⟩
  · exact Or.inl ⟨a1.trans b2, a2.trans b1⟩

theorem mem_groupOf {cs : List PComp} {r d : PComp} :
    d ∈ groupOf cs r ↔ d ∈ cs ∧ sameEdge r d = true := by
  unfold groupOf
  rw [List.mem_filter]

theorem isParallelGroup_of_two {g : List PComp} {x y : PComp}
    (hx : x ∈ g) (hy : y ∈ g) (hk : x.kind ≠ y.kind) :
    isParallelGroup g = true := by
  rcases g with _ | ⟨h, rest⟩
  · cases hx
  · unfold isParallelGroup
    rw [List.any_eq_true]
    by_cases hxh : x.kind = h.kind
    · have hyh : y.kind ≠ h.kind := fun he => hk (hxh.trans he.symm)
      have hy' : y ∈ rest := by
        rcases List.mem_cons.mp hy with rfl | h'
        · exact absurd rfl hyh
        · exact h'
      exact ⟨y, hy', by simpa using hyh⟩
    · have hx' : x ∈ rest := by
        rcases List.mem_cons.mp hx with rfl | h'
        · exact absurd rfl hxh
        · exact h'
      exact ⟨x, hx', by simpa using hxh⟩

theorem isParallelGroup_length {g : List PComp}
    (h : isParallelGroup g = true) : 2 ≤ g.length := by
  rcases g with _ | ⟨c, _ | ⟨d, rest⟩⟩
  · cases h
  · unfold isParallelGroup at h
    simp at h
  · simp [List.length_cons]

theorem edgeReps_go_covers (cs : List PComp) :
    ∀ acc : List PComp,
      (∀ c ∈ acc ++ cs, ∃ r ∈ cs.foldl
        (fun acc c => if acc.any (fun r => sameEdge r c) then acc else acc ++ [c])
        acc, sameEdge r c = true) := by
  induction cs with
  | nil =>
    intro acc c hc
    rw [List.append_nil] at hc
    exact ⟨c, hc, sameEdge_refl c⟩
  | cons a t ih =>
    intro acc c hc
    simp only [List.foldl_cons]
    by_cases ha : acc.any (fun r => sameEdge r a)
    · rw [if_pos ha]
      rcases List.mem_append.mp hc with hc' | hc'
      · exact ih acc c (List.mem_append_left _ hc')
      · rcases List.mem_cons.mp hc' with rfl | hc''
        · rcases List.any_eq_true.mp ha with ⟨r, hr, hre⟩
          rcases ih acc r (List.mem_append_left _ hr) with ⟨r', hr', hr'e⟩
          exact ⟨r', hr', sameEdge_trans hr'e (by simpa using hre)⟩
        · exact ih acc c (List.mem_append_right _ hc'')
    · rw [if_neg ha]
      apply ih (acc ++ [a]) c
      rcases List.mem_append.mp hc with hc' | hc'
      · exact List.mem_append_left _ (List.mem_append_left _ hc')
      · rcases List.mem_cons.mp hc' with rfl | hc''
        · exact List.mem_append_left _ (List.mem_append_right _ (by simp))
        · exact List.mem_append_right _ hc''

theorem edgeReps_covers (cs : List PComp) :
    ∀ c ∈ cs, ∃ r ∈ edgeReps cs, sameEdge r c = true := by
  intro c hc
  exact edgeReps_go_covers cs [] c (by simpa using hc)

theorem edgeReps_go_sub (cs : List PComp) :
    ∀ acc : List PComp, ∀ r ∈ cs.foldl
      (fun acc c => if acc.any (fun r => sameEdge r c) then acc else acc ++ [c])
      acc, r ∈ acc ∨ r ∈ cs := by
  induction cs with
  | nil => intro acc r hr; exact Or.inl hr
  | cons a t ih =>
    intro acc r hr
    simp only [List.foldl_cons] at hr
    by_cases ha : acc.any (fun r => sameEdge r a)
    · rw [if_pos ha] at hr
      rcases ih acc r hr with h | h
      · exact Or.inl h
      · exact Or.inr (List.mem_cons_of_mem _ h)
    · rw [if_neg ha] at hr
      rcases ih (acc ++ [a]) r hr with h | h
      · rcases List.mem_append.mp h with h' | h'
        · exact Or.inl h'
        · exact Or.inr (by simp at h'; simp [h'])
      · exact Or.inr (List.mem_cons_of_mem _ h)

theorem groupOf_congr {cs : List PComp} {r c : PComp}
    (h : sameEdge r c = true) : groupOf cs r = groupOf cs c := by
  unfold groupOf
  apply List.filter_congr
  intro d _
  by_cases hd : sameEdge c d = true
  · rw [hd, sameEdge_trans h hd]
  · simp only [Bool.not_eq_true] at hd
    rw [hd]
    by_contra hrd
    simp only [Bool.not_eq_false] at hrd
    rw [sameEdge_trans (sameEdge_symm h) hrd] at hd
    cases hd

theorem mem_parallelGroups_of {cs : List PComp} {c : PComp}
    (hc : c ∈ cs) (hp : inParallel cs c = true) :
    ∃ g ∈ parallelGroups cs, c ∈ g ∧ g = groupOf cs c := by
  rcases edgeReps_covers cs c hc with ⟨r, hr, hrc⟩
  have hgg : groupOf cs r = groupOf cs c := groupOf_congr hrc
  refine ⟨groupOf cs r, ?_, ?_, hgg⟩
  · unfold parallelGroups
    apply List.mem_filter.mpr
    constructor
    · exact List.mem_map_of_mem _ hr
    · rw [hgg]
      exact hp
  · rw [hgg]
    exact mem_groupOf.mpr ⟨hc, sameEdge_refl c⟩

theorem parallelGroups_props {cs : List PComp} {g : List PComp}
    (hg : g ∈ parallelGroups cs) :
    isParallelGroup g = true ∧ (∀ c ∈ g, c ∈ cs)
      ∧ (∀ c ∈ g, inParallel cs c = true ∧ g = groupOf cs c) := by
  unfold parallelGroups at hg
  have h1 := List.mem_filter.mp hg
  rcases List.mem_map.mp h1.1 with ⟨r, _, rfl⟩
  refine ⟨h1.2, fun c hc => (mem_groupOf.mp hc).1, ?_⟩
  intro c hc
  have hrc := (mem_groupOf.mp hc).2
  have hgg : groupOf cs r = groupOf cs c := groupOf_congr hrc
  constructor
  · unfold inParallel
    rw [← hgg]
    exact h1.2
  · exact hgg

theorem renameDupsGo_shape (g : List PComp) :
    ∀ (l : List PComp) (seen : List (String × Nat)),
      (renameDupsGo g seen l).map (fun c => (c.kind, c.b0, c.b1))
        = l.map (fun c => (c.kind, c.b0, c.b1)) := by
  intro l
  induction l with
  | nil => intro seen; rfl
  | cons c rest ih =>
    intro seen
    unfold renameDupsGo
    by_cases hc : (g.filter (fun x => x.name == c.name)).length > 1
    · rw [if_pos hc]
      simp [List.map_cons, ih]
    · rw [if_neg hc]
      simp [List.map_cons, ih]

theorem renameDups_mem_shape {g : List PComp} {c' : PComp}
    (h : c' ∈ renameDups g) :
    ∃ c ∈ g, c'.kind = c.kind ∧ c'.b0 = c.b0 ∧ c'.b1 = c.b1 := by
  have hm : (c'.kind, c'.b0, c'.b1) ∈ g.map (fun c => (c.kind, c.b0, c.b1)) := by
    rw [← renameDupsGo_shape g g []]
    exact List.mem_map_of_mem _ h
  rcases List.mem_map.mp hm with ⟨c, hc, heq⟩
  have h1 : c.kind = c'.kind := congrArg Prod.fst heq
  have h2 : c.b0 = c'.b0 := congrArg (fun p => p.2.1) heq
  have h3 : c.b1 = c'.b1 := congrArg (fun p => p.2.2) heq
  exact ⟨c, hc, h1.symm, h2.symm, h3.symm⟩

theorem renameDups_length (g : List PComp) :
    (renameDups g).length = g.length := by
  have := renameDupsGo_shape g g []
  have hlen := congrArg List.length this
  simpa [renameDups] using hlen

theorem chainNNames_b0_irrel (i j : Nat) (d : PComp) (b : String)
    (rest : List PComp) :
    chainNNames i j ({ d with b0 := b } :: rest) = chainNNames i j (d :: rest) := by
  cases rest <;> rfl

theorem chainNGo_spec (i : Nat) (v : String) :
    ∀ (l : List PComp) (j : Nat) (c : PComp),
      (∀ d ∈ l, d.b1 = v) → c.b1 = v →
      c.b0 ∉ chainNNames i j (c :: l) → c.b0 ≠ v →
      v ∉ chainNNames i j (c :: l) →
      (chainNNames i j (c :: l)).Nodup →
      (∀ e ∈ chainNGo i j c l,
          e.b0 ∈ c.b0 :: chainNNames i j (c :: l)
            ∧ e.b1 ∈ v :: chainNNames i j (c :: l))
      ∧ (chainNGo i j c l).Pairwise (fun e f => sameEdge e f = false)
      ∧ (l ≠ [] → ∀ e ∈ chainNGo i j c l,
          e.b0 ∈ chainNNames i j (c :: l) ∨ e.b1 ∈ chainNNames i j (c :: l)) := by
  intro l
  induction l with
  | nil =>
    intro j c _ hcb1 _ _ _ _
    refine ⟨?_, ?_, fun h => absurd rfl h⟩
    · intro e he
      rcases List.mem_cons.mp he with rfl | he'
      · exact ⟨List.mem_cons_self _ _, by rw [hcb1]; exact List.mem_cons_self _ _⟩
      · cases he'
    · exact List.pairwise_singleton _ _
  | cons d rest ih =>
    intro j c hb1 hcb1 hcb0 hcv hv hnd
    have hnames : chainNNames i j (c :: d :: rest)
        = chainName c.b1 j i :: chainNNames i (j + 1) (d :: rest) := rfl
    set nb := chainName c.b1 j i with hnb
    have hnbmem : nb ∈ chainNNames i j (c :: d :: rest) := by
      rw [hnames]; exact List.mem_cons_self _ _
    have htail_sub : ∀ x ∈ chainNNames i (j + 1) (d :: rest),
        x ∈ chainNNames i j (c :: d :: rest) := by
      intro x hx
      rw [hnames]
      exact List.mem_cons_of_mem _ hx
    have hnd' : (chainNNames i (j + 1) (d :: rest)).Nodup := by
      rw [hnames] at hnd
      exact (List.nodup_cons.mp hnd).2
    have hnbtail : nb ∉ chainNNames i (j + 1) (d :: rest) := by
      rw [hnames] at hnd
      exact (List.nodup_cons.mp hnd).1
    have hd2 : ({ d with b0 := nb } : PComp).b1 = v := hb1 d (List.mem_cons_self _ _)
    have hnames2 : chainNNames i (j + 1) ({ d with b0 := nb } :: rest)
        = chainNNames i (j + 1) (d :: rest) := chainNNames_b0_irrel i (j + 1) d nb rest
    have hrec := ih (j + 1) { d with b0 := nb }
      (fun x hx => hb1 x (List.mem_cons_of_mem _ hx)) hd2
      (by rw [hnames2]; exact hnbtail)
      (by intro h; exact hv (h ▸ hnbmem))
      (by rw [hnames2]; intro h; exact hv (htail_sub _ h))
      (by rw [hnames2]; exact hnd')
    rw [hnames2] at hrec
    have hout : chainNGo i j c (d :: rest)
        = { c with b1 := nb } :: chainNGo i (j + 1) { d with b0 := nb } rest := rfl
    rw [hout]
    refine ⟨?_, ?_, ?_⟩
    · intro e he
      rcases List.mem_cons.mp he with rfl | he'
      · refine ⟨List.mem_cons_self _ _, ?_⟩
        show nb ∈ v :: chainNNames i j (c :: d :: rest)
        exact List.mem_cons_of_mem v hnbmem
      · rcases (hrec.1 e he') with ⟨h0, h1⟩
        constructor
        · rcases List.mem_cons.mp h0 with h0' | h0'
          · exact List.mem_cons_of_mem _ (h0' ▸ hnbmem)
          · exact List.mem_cons_of_mem _ (htail_sub _ h0')
        · rcases List.mem_cons.mp h1 with h1' | h1'
          · exact h1' ▸ List.mem_cons_self _ _
          · exact List.mem_cons_of_mem _ (htail_sub _ h1')
    · apply List.pairwise_cons.mpr
      refine ⟨?_, hrec.2.1⟩
      intro f hf
      rcases hrec.1 f hf with ⟨hf0, hf1⟩
      rw [Bool.eq_false_iff]
      intro hse
      rcases (sameEdge_iff _ _).mp hse with ⟨ha, _⟩ | ⟨ha, _⟩
      · -- c.b0 = f.b0 ∈ nb :: tail names, but c.b0 is no generated name
        rcases List.mem_cons.mp hf0 with h' | h'
        · exact hcb0 (ha ▸ h' ▸ hnbmem)
        · exact hcb0 (ha ▸ htail_sub _ h')
      · -- c.b0 = f.b1 ∈ v :: tail names
        rcases List.mem_cons.mp hf1 with h' | h'
        · exact hcv (ha ▸ h')
        · exact hcb0 (ha ▸ htail_sub _ h')
    · intro _ e he
      rcases List.mem_cons.mp he with rfl | he'
      · exact Or.inr hnbmem
      · rcases hrec.1 e he' with ⟨h0, _⟩
        rcases List.mem_cons.mp h0 with h0' | h0'
        · exact Or.inl (h0' ▸ hnbmem)
        · exact Or.inl (htail_sub _ h0')

theorem chainTGo_spec (i : Nat) (u : String) :
    ∀ (l : List PComp) (j : Nat) (c : PComp) (prev : String),
      c.b0 = u → (∀ d ∈ l, d.b0 = u) →
      prev ∉ chainTNames i j (c :: l) → prev ≠ u →
      u ∉ chainTNames i j (c :: l) →
      (chainTNames i j (c :: l)).Nodup →
      (∀ e ∈ chainTGo i j prev c l,
          e.b0 ∈ u :: chainTNames i j (c :: l)
            ∧ e.b1 ∈ prev :: chainTNames i j (c :: l))
      ∧ (chainTGo i j prev c l).Pairwise (fun e f => sameEdge e f = false) := by
  intro l
  induction l with
  | nil =>
    intro j c prev hc _ _ _ _ _
    constructor
    · intro e he
      rcases List.mem_cons.mp he with rfl | he'
      · constructor
        · show c.b0 ∈ u :: chainTNames i j [c]
          rw [hc]
          exact List.mem_cons_self _ _
        · exact List.mem_cons_self _ _
      · cases he'
    · exact List.pairwise_singleton _ _
  | cons d rest ih =>
    intro j c prev hc hb0 hprev hprevu hu hnd
    have hnames : chainTNames i j (c :: d :: rest)
        = chainName d.name j i :: chainTNames i (j + 1) (d :: rest) := rfl
    set nb := chainName d.name j i with hnb
    have hnbmem : nb ∈ chainTNames i j (c :: d :: rest) := by
      rw [hnames]; exact List.mem_cons_self _ _
    have htail_sub : ∀ x ∈ chainTNames i (j + 1) (d :: rest),
        x ∈ chainTNames i j (c :: d :: rest) := by
      intro x hx
      rw [hnames]
      exact List.mem_cons_of_mem _ hx
    have hnd' : (chainTNames i (j + 1) (d :: rest)).Nodup := by
      rw [hnames] at hnd
      exact (List.nodup_cons.mp hnd).2
    have hnbtail : nb ∉ chainTNames i (j + 1) (d :: rest) := by
      rw [hnames] at hnd
      exact (List.nodup_cons.mp hnd).1
    have hrec := ih (j + 1) d nb (hb0 d (List.mem_cons_self _ _))
      (fun x hx => hb0 x (List.mem_cons_of_mem _ hx))
      hnbtail
      (by intro h; exact hu (h ▸ hnbmem))
      (fun h => hu (htail_sub _ h))
      hnd'
    have hout : chainTGo i j prev c (d :: rest)
        = { c with b1 := prev, b0 := nb }
            :: chainTGo i (j + 1) nb d rest := rfl
    rw [hout]
    constructor
    · intro e he
      rcases List.mem_cons.mp he with rfl | he'
      · exact ⟨List.mem_cons_of_mem _ hnbmem, List.mem_cons_self _ _⟩
      · rcases hrec.1 e he' with ⟨h0, h1⟩
        constructor
        · rcases List.mem_cons.mp h0 with h0' | h0'
          · exact h0' ▸ List.mem_cons_self _ _
          · exact List.mem_cons_of_mem _ (htail_sub _ h0')
        · rcases List.mem_cons.mp h1 with h1' | h1'
          · exact List.mem_cons_of_mem _ (h1' ▸ hnbmem)
          · exact List.mem_cons_of_mem _ (htail_sub _ h1')
    · apply List.pairwise_cons.mpr
      refine ⟨?_, hrec.2⟩
      intro f hf
      rcases hrec.1 f hf with ⟨hf0, hf1⟩
      rw [Bool.eq_false_iff]
      intro hse
      rcases (sameEdge_iff _ _).mp hse with ⟨ha, _⟩ | ⟨_, hb⟩
      · -- nb = f.b0 ∈ u :: tail names
        have ha' : nb = f.b0 := ha
        rcases List.mem_cons.mp hf0 with h' | h'
        · rw [ha'.trans h'] at hnbmem
          exact hu hnbmem
        · exact hnbtail (by rw [ha']; exact h')
      · -- prev = f.b0 ∈ u :: tail names
        have hb' : prev = f.b0 := hb
        rcases List.mem_cons.mp hf0 with h' | h'
        · exact hprevu (hb'.trans h')
        · exact hprev (htail_sub _ (by rw [hb']; exact h'))

theorem chainT_spec (i : Nat) (u P : String) (l : List PComp)
    (hb0 : ∀ d ∈ l, d.b0 = u)
    (hP : P ∉ chainTNames i 0 l) (hPu : P ≠ u)
    (hu : u ∉ chainTNames i 0 l)
    (hnd : (chainTNames i 0 l).Nodup) :
    (∀ e ∈ chainT i P l,
        e.b0 ∈ u :: chainTNames i 0 l ∧ e.b1 ∈ P :: chainTNames i 0 l)
    ∧ (chainT i P l).Pairwise (fun e f => sameEdge e f = false) := by
  match l with
  | [] =>
    exact ⟨fun e he => absurd he (by simp [chainT]), by simp [chainT]⟩
  | [c] =>
    constructor
    · intro e he
      rcases List.mem_cons.mp he with rfl | he'
      · constructor
        · show c.b0 ∈ u :: chainTNames i 0 [c]
          rw [hb0 c (List.mem_cons_self _ _)]
          exact List.mem_cons_self _ _
        · exact List.mem_cons_self _ _
      · cases he'
    · exact List.pairwise_singleton _ _
  | c :: d :: rest =>
    have hnames : chainTNames i 0 (c :: d :: rest)
        = chainName d.name 0 i :: chainTNames i 1 (d :: rest) := rfl
    set nb := chainName d.name 0 i with hnb
    have hnbmem : nb ∈ chainTNames i 0 (c :: d :: rest) := by
      rw [hnames]; exact List.mem_cons_self _ _
    have htail_sub : ∀ x ∈ chainTNames i 1 (d :: rest),
        x ∈ chainTNames i 0 (c :: d :: rest) := by
      intro x hx
      rw [hnames]
      exact List.mem_cons_of_mem _ hx
    have hnd' : (chainTNames i 1 (d :: rest)).Nodup := by
      rw [hnames] at hnd
      exact (List.nodup_cons.mp hnd).2
    have hnbtail : nb ∉ chainTNames i 1 (d :: rest) := by
      rw [hnames] at hnd
      exact (List.nodup_cons.mp hnd).1
    have hrec := chainTGo_spec i u rest 1 d nb
      (hb0 d (List.mem_cons_of_mem _ (List.mem_cons_self _ _)))
      (fun x hx => hb0 x (List.mem_cons_of_mem _ (List.mem_cons_of_mem _ hx)))
      hnbtail
      (by intro h; exact hu (h ▸ hnbmem))
      (fun h => hu (htail_sub _ h))
      hnd'
    have hout : chainT i P (c :: d :: rest)
        = { c with b0 := nb, b1 := P } :: chainTGo i 1 nb d rest := rfl
    rw [hout]
    constructor
    · intro e he
      rcases List.mem_cons.mp he with rfl | he'
      · exact ⟨List.mem_cons_of_mem _ hnbmem, List.mem_cons_self _ _⟩
      · rcases hrec.1 e he' with ⟨h0, h1⟩
        constructor
        · rcases List.mem_cons.mp h0 with h0' | h0'
          · exact h0' ▸ List.mem_cons_self _ _
          · exact List.mem_cons_of_mem _ (htail_sub _ h0')
        · rcases List.mem_cons.mp h1 with h1' | h1'
          · exact List.mem_cons_of_mem _ (h1' ▸ hnbmem)
          · exact List.mem_cons_of_mem _ (htail_sub _ h1')
    · apply List.pairwise_cons.mpr
      refine ⟨?_, hrec.2⟩
      intro f hf
      rcases hrec.1 f hf with ⟨hf0, hf1⟩
      rw [Bool.eq_false_iff]
      intro hse
      rcases (sameEdge_iff _ _).mp hse with ⟨_, hb⟩ | ⟨_, hb⟩
      · -- P = f.b1 ∈ nb :: tail names
        have hb' : P = f.b1 := hb
        have hPmem : P ∈ nb :: chainTNames i 1 (d :: rest) := by
          rw [hb']; exact hf1
        rcases List.mem_cons.mp hPmem with h' | h'
        · rw [← h'] at hnbmem
          exact hP hnbmem
        · exact hP (htail_sub _ h')
      · -- P = f.b0 ∈ u :: tail names
        have hb' : P = f.b0 := hb
        have hPmem : P ∈ u :: chainTNames i 1 (d :: rest) := by
          rw [hb']; exact hf0
        rcases List.mem_cons.mp hPmem with h' | h'
        · exact hPu h'
        · exact hP (htail_sub _ h')

theorem isXfmr_kind {c : PComp} (h : isXfmr c = true) :
    c.kind = CKind.transformer := by
  simpa [isXfmr] using h

theorem rewriteGroup_spec (i : Nat) (g : List PComp) (u v : String)
    (horient : ∀ c ∈ g, c.b0 = u ∧ c.b1 = v)
    (huv : u ≠ v)
    (hlen : 2 ≤ g.length)
    (hnodup : (groupNewNames i g).Nodup)
    (hdu : u ∉ groupNewNames i g)
    (hdv : v ∉ groupNewNames i g) :
    (∀ e ∈ rewriteGroup i g,
        e.b0 ∈ u :: v :: groupNewNames i g ∧ e.b1 ∈ u :: v :: groupNewNames i g)
    ∧ (∀ e ∈ rewriteGroup i g,
        e.b0 ∈ groupNewNames i g ∨ e.b1 ∈ groupNewNames i g)
    ∧ (∀ e ∈ rewriteGroup i g, ∀ f ∈ rewriteGroup i g,
        sameEdge e f = true → e.kind = f.kind) := by
  have horient' : ∀ c ∈ renameDups g, c.b0 = u ∧ c.b1 = v := by
    intro c hc
    rcases renameDups_mem_shape hc with ⟨c₀, hc₀, _, h0, h1⟩
    rcases horient c₀ hc₀ with ⟨hu0, hv1⟩
    exact ⟨h0.trans hu0, h1.trans hv1⟩
  have hnsmem : ∀ c ∈ (renameDups g).filter (fun c => !(isXfmr c)),
      c.b0 = u ∧ c.b1 = v := by
    intro c hc
    exact horient' c (List.mem_filter.mp hc).1
  rcases hts : ((renameDups g).filter isXfmr).head? with _ | t0
  · -- no transformer in the group: plain chain
    have htsnil : (renameDups g).filter isXfmr = [] := by
      rcases hx : (renameDups g).filter isXfmr with _ | ⟨a, t⟩
      · rfl
      · rw [hx] at hts; cases hts
    have hnall : (renameDups g).filter (fun c => !(isXfmr c)) = renameDups g := by
      apply List.filter_eq_self.mpr
      intro c hc
      have : ¬ isXfmr c = true := by
        intro hi
        have : c ∈ (renameDups g).filter isXfmr := List.mem_filter.mpr ⟨hc, hi⟩
        rw [htsnil] at this
        cases this
      simp [Bool.not_eq_true] at this
      simp [this]
    have hout : rewriteGroup i g
        = chainN i ((renameDups g).filter (fun c => !(isXfmr c))) := by
      unfold rewriteGroup
      rw [hts]
    have hgN : groupNewNames i g
        = chainNNames i 0 ((renameDups g).filter (fun c => !(isXfmr c))) := by
      unfold groupNewNames
      rw [hts]
    have hlen' : 2 ≤ ((renameDups g).filter (fun c => !(isXfmr c))).length := by
      rw [hnall, renameDups_length]
      exact hlen
    rcases hns : (renameDups g).filter (fun c => !(isXfmr c))
      with _ | ⟨c, _ | ⟨d, rest⟩⟩
    · rw [hns] at hlen'; simp at hlen'
    · rw [hns] at hlen'; simp at hlen'
    · rw [hns] at hout hgN hnsmem
      have hc := hnsmem c (List.mem_cons_self _ _)
      have hspec := chainNGo_spec i v (d :: rest) 0 c
        (fun x hx => (hnsmem x (List.mem_cons_of_mem _ hx)).2)
        hc.2
        (by rw [hc.1, ← hgN]; exact hdu)
        (by rw [hc.1]; exact huv)
        (by rw [← hgN]; exact hdv)
        (by rw [← hgN]; exact hnodup)
      have hchain : rewriteGroup i g = chainNGo i 0 c (d :: rest) := hout
      rw [hchain, hgN]
      refine ⟨?_, ?_, ?_⟩
      · intro e he
        rcases hspec.1 e he with ⟨h0, h1⟩
        constructor
        · rcases List.mem_cons.mp h0 with h0' | h0'
          · rw [h0', hc.1]; exact List.mem_cons_self _ _
          · exact List.mem_cons_of_mem _ (List.mem_cons_of_mem _ h0')
        · rcases List.mem_cons.mp h1 with h1' | h1'
          · rw [h1']; exact List.mem_cons_of_mem _ (List.mem_cons_self _ _)
          · exact List.mem_cons_of_mem _ (List.mem_cons_of_mem _ h1')
      · intro e he
        exact hspec.2.2 (by simp) e he
      · intro e he f hf hse
        rcases pairwise_mem_cases hspec.2.1 he hf with h | h | h
        · rw [h]
        · rw [h] at hse; cases hse
        · rw [sameEdge_symm hse] at h; cases h
  · -- transformer present: synthetic primary bus
    have ht0mem : t0 ∈ (renameDups g).filter isXfmr := by
      rcases hx : (renameDups g).filter isXfmr with _ | ⟨a, t⟩
      · rw [hx] at hts; cases hts
      · rw [hx] at hts
        injection hts with h
        rw [h] at hx ⊢
        exact List.mem_cons_self _ _
    have ht0g : t0 ∈ renameDups g := (List.mem_filter.mp ht0mem).1
    have ht0x : isXfmr t0 = true := (List.mem_filter.mp ht0mem).2
    rcases horient' t0 ht0g with ⟨ht0b0, ht0b1⟩
    have hout : rewriteGroup i g
        = chainT i (t0.b0 ++ "_primary")
            ((renameDups g).filter (fun c => !(isXfmr c)))
          ++ ((renameDups g).filter isXfmr).map
              (fun t => { t with b0 := t0.b0 ++ "_primary", b1 := t0.b1 }) := by
      unfold rewriteGroup
      rw [hts]
    have hgN : groupNewNames i g
        = (t0.b0 ++ "_primary")
            :: chainTNames i 0 ((renameDups g).filter (fun c => !(isXfmr c))) := by
      unfold groupNewNames
      rw [hts]
    set P := t0.b0 ++ "_primary" with hP
    set ns := (renameDups g).filter (fun c => !(isXfmr c)) with hns
    set tns := chainTNames i 0 ns with htns
    have hPgN : P ∈ groupNewNames i g := by
      rw [hgN]; exact List.mem_cons_self _ _
    have htail_sub : ∀ x ∈ tns, x ∈ groupNewNames i g := by
      intro x hx
      rw [hgN]
      exact List.mem_cons_of_mem _ hx
    have hPu : P ≠ u := fun h => hdu (h ▸ hPgN)
    have hPv : P ≠ v := fun h => hdv (h ▸ hPgN)
    have hutns : u ∉ tns := fun h => hdu (htail_sub _ h)
    have hvtns : v ∉ tns := fun h => hdv (htail_sub _ h)
    have hPtns : P ∉ tns := by
      rw [hgN] at hnodup
      exact (List.nodup_cons.mp hnodup).1
    have htnsnd : tns.Nodup := by
      rw [hgN] at hnodup
      exact (List.nodup_cons.mp hnodup).2
    have hspec := chainT_spec i u P ns
      (fun d hd => (hnsmem d hd).1) hPtns hPu hutns htnsnd
    have hchainb : ∀ e ∈ chainT i P ns,
        (e.b0 ∈ u :: tns) ∧ (e.b1 ∈ P :: tns) := hspec.1
    have htpart : ∀ f ∈ ((renameDups g).filter isXfmr).map
        (fun t => { t with b0 := P, b1 := t0.b1 }),
        f.b0 = P ∧ f.b1 = v ∧ f.kind = CKind.transformer := by
      intro f hf
      rcases List.mem_map.mp hf with ⟨t, ht, rfl⟩
      refine ⟨rfl, ht0b1, ?_⟩
      exact isXfmr_kind (List.mem_filter.mp ht).2
    have hcross : ∀ e ∈ chainT i P ns,
        ∀ f ∈ ((renameDups g).filter isXfmr).map
          (fun t => { t with b0 := P, b1 := t0.b1 }),
        ¬ sameEdge e f = true := by
      intro e he f hf hse
      rcases hchainb e he with ⟨he0, _⟩
      rcases htpart f hf with ⟨hf0, hf1, _⟩
      rcases (sameEdge_iff _ _).mp hse with ⟨ha, _⟩ | ⟨ha, hb⟩
      · -- e.b0 = f.b0 = P, but P is not u nor a chain name
        rw [hf0] at ha
        rw [ha] at he0
        rcases List.mem_cons.mp he0 with h' | h'
        · exact hPu h'
        · exact hPtns h'
      · -- e.b0 = f.b1 = v
        rw [hf1] at ha
        rw [ha] at he0
        rcases List.mem_cons.mp he0 with h' | h'
        · exact huv h'.symm
        · exact hvtns h'
    rw [hout, hgN]
    refine ⟨?_, ?_, ?_⟩
    · intro e he
      rcases List.mem_append.mp he with he' | he'
      · rcases hchainb e he' with ⟨h0, h1⟩
        constructor
        · rcases List.mem_cons.mp h0 with h0' | h0'
          · rw [h0']; exact List.mem_cons_self _ _
          · exact List.mem_cons_of_mem _
              (List.mem_cons_of_mem _ (List.mem_cons_of_mem _ h0'))
        · rcases List.mem_cons.mp h1 with h1' | h1'
          · rw [h1']
            exact List.mem_cons_of_mem _
              (List.mem_cons_of_mem _ (List.mem_cons_self _ _))
          · exact List.mem_cons_of_mem _
              (List.mem_cons_of_mem _ (List.mem_cons_of_mem _ h1'))
      · rcases htpart e he' with ⟨h0, h1, _⟩
        constructor
        · rw [h0]
          exact List.mem_cons_of_mem _
            (List.mem_cons_of_mem _ (List.mem_cons_self _ _))
        · rw [h1]
          exact List.mem_cons_of_mem _ (List.mem_cons_self _ _)
    · intro e he
      rcases List.mem_append.mp he with he' | he'
      · rcases hchainb e he' with ⟨_, h1⟩
        rcases List.mem_cons.mp h1 with h1' | h1'
        · exact Or.inr (by rw [h1']; exact List.mem_cons_self _ _)
        · exact Or.inr (List.mem_cons_of_mem _ h1')
      · rcases htpart e he' with ⟨h0, _, _⟩
        exact Or.inl (by rw [h0]; exact List.mem_cons_self _ _)
    · intro e he f hf hse
      rcases List.mem_append.mp he with he' | he' <;>
        rcases List.mem_append.mp hf with hf' | hf'
      · rcases pairwise_mem_cases hspec.2 he' hf' with h | h | h
        · rw [h]
        · rw [h] at hse; cases hse
        · rw [sameEdge_symm hse] at h; cases h
      · exact absurd hse (hcross e he' f hf')
      · exact absurd (sameEdge_symm hse) (hcross f hf' e he')
      · rw [(htpart e he').2.2, (htpart f hf').2.2]

theorem nodup_flatMap_parts {β γ : Type} (l : List β) (f : β → List γ)
    (h : (l.flatMap f).Nodup) :
    (∀ b ∈ l, (f b).Nodup)
      ∧ l.Pairwise (fun b b' => ∀ x ∈ f b, x ∉ f b') := by
  induction l with
  | nil => exact ⟨fun b hb => absurd hb (List.not_mem_nil b), List.Pairwise.nil⟩
  | cons b t ih =>
    rw [List.flatMap_cons, List.nodup_append] at h
    rcases h with ⟨h1, h2, h3⟩
    rcases ih h2 with ⟨ih1, ih2⟩
    constructor
    · intro b' hb'
      rcases List.mem_cons.mp hb' with rfl | hb''
      · exact h1
      · exact ih1 b' hb''
    · apply List.pairwise_cons.mpr
      refine ⟨?_, ih2⟩
      intro b' hb' x hx hx'
      exact h3 hx (List.mem_flatMap.mpr ⟨b', hb', hx'⟩)

theorem mem_allBusNames {cs : List PComp} {c : PComp} (hc : c ∈ cs) :
    c.b0 ∈ allBusNames cs ∧ c.b1 ∈ allBusNames cs := by
  unfold allBusNames
  constructor
  · exact List.mem_flatMap.mpr ⟨c, hc, by simp⟩
  · exact List.mem_flatMap.mpr ⟨c, hc, by simp⟩

theorem enum_snd_mem {β : Type} {l : List β} {p : Nat × β} (hp : p ∈ l.enum) :
    p.2 ∈ l := by
  have : p.2 ∈ l.enum.map Prod.snd := List.mem_map_of_mem _ hp
  rwa [List.enum_map_snd] at this

theorem mem_serialize {cs : List PComp} {x : PComp} :
    x ∈ serializeParallelBranches cs
      ↔ (x ∈ cs ∧ inParallel cs x = false)
        ∨ ∃ p ∈ (parallelGroups cs).enum, x ∈ rewriteGroup p.1 p.2 := by
  unfold serializeParallelBranches
  rw [List.mem_append, List.mem_filter, List.mem_flatMap]
  constructor
  · rintro (⟨h1, h2⟩ | ⟨p, hp, hx⟩)
    · exact Or.inl ⟨h1, by simpa using h2⟩
    · exact Or.inr ⟨p, hp, hx⟩
  · rintro (⟨h1, h2⟩ | ⟨p, hp, hx⟩)
    · exact Or.inl ⟨h1, by simpa using h2⟩
    · exact Or.inr ⟨p, hp, hx⟩

theorem groupNewNames_sub_all {cs : List PComp} {p : Nat × List PComp}
    (hp : p ∈ (parallelGroups cs).enum) :
    ∀ x ∈ groupNewNames p.1 p.2, x ∈ allNewNames cs := by
  intro x hx
  unfold allNewNames
  exact List.mem_flatMap.mpr ⟨p, hp, hx⟩

theorem group_rewrite_facts (cs : List PComp)
    (H1 : ∀ g ∈ parallelGroups cs,
      ∃ u v, u ≠ v ∧ ∀ c ∈ g, c.b0 = u ∧ c.b1 = v)
    (H2a : (allNewNames cs).Nodup)
    (H2b : ∀ n ∈ allNewNames cs, n ∉ allBusNames cs)
    {p : Nat × List PComp} (hp : p ∈ (parallelGroups cs).enum) :
    (∀ e ∈ rewriteGroup p.1 p.2,
        (e.b0 ∈ allBusNames cs ∨ e.b0 ∈ groupNewNames p.1 p.2)
          ∧ (e.b1 ∈ allBusNames cs ∨ e.b1 ∈ groupNewNames p.1 p.2))
    ∧ (∀ e ∈ rewriteGroup p.1 p.2,
        e.b0 ∈ groupNewNames p.1 p.2 ∨ e.b1 ∈ groupNewNames p.1 p.2)
    ∧ (∀ e ∈ rewriteGroup p.1 p.2, ∀ f ∈ rewriteGroup p.1 p.2,
        sameEdge e f = true → e.kind = f.kind) := by
  have hg : p.2 ∈ parallelGroups cs := enum_snd_mem hp
  rcases parallelGroups_props hg with ⟨hpar, hsub, _⟩
  rcases H1 p.2 hg with ⟨u, v, huv, horient⟩
  have hlen := isParallelGroup_length hpar
  have hgne : p.2 ≠ [] := by
    intro h
    rw [h] at hlen
    simp at hlen
  rcases List.exists_mem_of_ne_nil _ hgne with ⟨c₀, hc₀⟩
  have hc₀cs : c₀ ∈ cs := hsub c₀ hc₀
  rcases horient c₀ hc₀ with ⟨hub, hvb⟩
  have humem : u ∈ allBusNames cs := hub ▸ (mem_allBusNames hc₀cs).1
  have hvmem : v ∈ allBusNames cs := hvb ▸ (mem_allBusNames hc₀cs).2
  have hpartnd : (groupNewNames p.1 p.2).Nodup := by
    have := (nodup_flatMap_parts _ _ H2a).1 p hp
    exact this
  have hdu : u ∉ groupNewNames p.1 p.2 := by
    intro h
    exact H2b u (groupNewNames_sub_all hp u h) humem
  have hdv : v ∉ groupNewNames p.1 p.2 := by
    intro h
    exact H2b v (groupNewNames_sub_all hp v h) hvmem
  rcases rewriteGroup_spec p.1 p.2 u v horient huv hlen hpartnd hdu hdv
    with ⟨hb, hfresh, hkinds⟩
  refine ⟨?_, hfresh, hkinds⟩
  intro e he
  rcases hb e he with ⟨h0, h1⟩
  constructor
  · rcases List.mem_cons.mp h0 with h' | h'
    · exact Or.inl (h' ▸ humem)
    · rcases List.mem_cons.mp h' with h'' | h''
      · exact Or.inl (h'' ▸ hvmem)
      · exact Or.inr h''
  · rcases List.mem_cons.mp h1 with h' | h'
    · exact Or.inl (h' ▸ humem)
    · rcases List.mem_cons.mp h' with h'' | h''
      · exact Or.inl (h'' ▸ hvmem)
      · exact Or.inr h''

end CymeSerial

/-- C2 counterexample: a branch `line1` connecting `(u, v)` and a
switch `sw1` connecting `(v, u)` — the same unordered bus pair listed
in opposite orders — form a parallel group of differing kinds.  The
chain loop rewires them to `(u, v_0_0)` and `(v_0_0, u)`: still the
same unordered pair with two differing kinds, so the claimed invariant
fails after the pass completes. -/
theorem claim_C2_parallel_elimination_counterexample :
    CymeSerial.serializeParallelBranches
        [⟨.branch, "line1", "u", "v"⟩, ⟨.switch, "sw1", "v", "u"⟩]
      = [⟨.branch, "line1", "u", "v_0_0"⟩, ⟨.switch, "sw1", "v_0_0", "u"⟩]
    ∧ CymeSerial.sameEdge ⟨.branch, "line1", "u", "v_0_0"⟩
        ⟨.switch, "sw1", "v_0_0", "u"⟩ = true
    ∧ CymeSerial.CKind.branch ≠ CymeSerial.CKind.switch := by
  refine ⟨rfl, rfl, by decide⟩

/-- C2 (amended): provided every parallel group lists its shared bus
pair in a consistent orientation (all members have the same first and
the same second bus, and the two buses differ), and the synthetic bus
names the pass generates are pairwise distinct and distinct from every
pre-existing bus name (`copy_component(..., attach=True)` fails
otherwise), then after the parallel-branch serialization pass no two
components of differing kinds connect the same unordered bus pair. -/
theorem claim_C2_parallel_elimination (cs : List CymeSerial.PComp)
    (H1 : ∀ g ∈ CymeSerial.parallelGroups cs,
      ∃ u v, u ≠ v ∧ ∀ c ∈ g, c.b0 = u ∧ c.b1 = v)
    (H2a : (CymeSerial.allNewNames cs).Nodup)
    (H2b : ∀ n ∈ CymeSerial.allNewNames cs,
      n ∉ CymeSerial.allBusNames cs) :
    ∀ c ∈ CymeSerial.serializeParallelBranches cs,
    ∀ d ∈ CymeSerial.serializeParallelBranches cs,
      CymeSerial.sameEdge c d = true → c.kind = d.kind := by
  have hfreshcase : ∀ (p : Nat × List CymeSerial.PComp),
      p ∈ (CymeSerial.parallelGroups cs).enum →
      ∀ c ∈ CymeSerial.rewriteGroup p.1 p.2,
      ∀ d : CymeSerial.PComp, d.b0 ∈ CymeSerial.allBusNames cs →
      d.b1 ∈ CymeSerial.allBusNames cs →
      CymeSerial.sameEdge c d = true → False := by
    -- a rewritten component carries a synthetic bus, which can never
    -- coincide with a pre-existing bus pair
    intro p hp c hc d hd0 hd1 hse
    rcases (CymeSerial.group_rewrite_facts cs H1 H2a H2b hp).2.1 c hc with hn | hn
    · rcases (CymeSerial.sameEdge_iff _ _).mp hse with ⟨ha, _⟩ | ⟨ha, _⟩
      · exact H2b c.b0 (CymeSerial.groupNewNames_sub_all hp _ hn) (ha ▸ hd0)
      · exact H2b c.b0 (CymeSerial.groupNewNames_sub_all hp _ hn) (ha ▸ hd1)
    · rcases (CymeSerial.sameEdge_iff _ _).mp hse with ⟨_, hb⟩ | ⟨_, hb⟩
      · exact H2b c.b1 (CymeSerial.groupNewNames_sub_all hp _ hn) (hb ▸ hd1)
      · exact H2b c.b1 (CymeSerial.groupNewNames_sub_all hp _ hn) (hb ▸ hd0)
  have hdisj := (CymeSerial.nodup_flatMap_parts _ _ H2a).2
  intro c hc d hd hse
  rcases CymeSerial.mem_serialize.mp hc with ⟨hccs, hcun⟩ | ⟨p, hp, hcrw⟩
  · rcases CymeSerial.mem_serialize.mp hd with ⟨hdcs, _⟩ | ⟨q, hq, hdrw⟩
    · -- both untouched: a differing-kind pair would have been a
      -- parallel group
      by_contra hk
      have hcg : c ∈ CymeSerial.groupOf cs c :=
        CymeSerial.mem_groupOf.mpr ⟨hccs, CymeSerial.sameEdge_refl c⟩
      have hdg : d ∈ CymeSerial.groupOf cs c :=
        CymeSerial.mem_groupOf.mpr ⟨hdcs, hse⟩
      have := CymeSerial.isParallelGroup_of_two hcg hdg hk
      rw [show CymeSerial.isParallelGroup (CymeSerial.groupOf cs c)
        = CymeSerial.inParallel cs c from rfl, hcun] at this
      cases this
    · -- untouched vs rewritten: impossible
      exact (hfreshcase q hq d hdrw c
        (CymeSerial.mem_allBusNames hccs).1 (CymeSerial.mem_allBusNames hccs).2
        (CymeSerial.sameEdge_symm hse)).elim
  · rcases CymeSerial.mem_serialize.mp hd with ⟨hdcs, _⟩ | ⟨q, hq, hdrw⟩
    · -- rewritten vs untouched: impossible
      exact (hfreshcase p hp c hcrw d
        (CymeSerial.mem_allBusNames hdcs).1 (CymeSerial.mem_allBusNames hdcs).2
        hse).elim
    · -- both rewritten
      rcases pairwise_mem_cases hdisj hp hq with hpq | hpq | hpq
      · -- same group: within-group distinctness
        rw [hpq] at hcrw
        exact (CymeSerial.group_rewrite_facts cs H1 H2a H2b hq).2.2 c hcrw d hdrw hse
      · -- distinct groups: a synthetic bus of one group cannot occur
        -- in the other group's rewritten pair
        rcases (CymeSerial.group_rewrite_facts cs H1 H2a H2b hp).2.1 c hcrw
          with hn | hn
        all_goals
          rcases (CymeSerial.sameEdge_iff _ _).mp hse with ⟨ha, hb⟩ | ⟨ha, hb⟩
        · rcases (CymeSerial.group_rewrite_facts cs H1 H2a H2b hq).1 d hdrw
            with ⟨hd0, _⟩
          rcases hd0 with hd0 | hd0
          · exact absurd (ha ▸ hd0)
              (fun h => H2b c.b0 (CymeSerial.groupNewNames_sub_all hp _ hn) h)
          · exact absurd (ha ▸ hd0) (hpq c.b0 hn)
        · rcases (CymeSerial.group_rewrite_facts cs H1 H2a H2b hq).1 d hdrw
            with ⟨_, hd1⟩
          rcases hd1 with hd1 | hd1
          · exact absurd (ha ▸ hd1)
              (fun h => H2b c.b0 (CymeSerial.groupNewNames_sub_all hp _ hn) h)
          · exact absurd (ha ▸ hd1) (hpq c.b0 hn)
        · rcases (CymeSerial.group_rewrite_facts cs H1 H2a H2b hq).1 d hdrw
            with ⟨_, hd1⟩
          rcases hd1 with hd1 | hd1
          · exact absurd (hb ▸ hd1)
              (fun h => H2b c.b1 (CymeSerial.groupNewNames_sub_all hp _ hn) h)
          · exact absurd (hb ▸ hd1) (hpq c.b1 hn)
        · rcases (CymeSerial.group_rewrite_facts cs H1 H2a H2b hq).1 d hdrw
            with ⟨hd0, _⟩
          rcases hd0 with hd0 | hd0
          · exact absurd (hb ▸ hd0)
              (fun h => H2b c.b1 (CymeSerial.groupNewNames_sub_all hp _ hn) h)
          · exact absurd (hb ▸ hd0) (hpq c.b1 hn)
      · -- symmetric disjointness
        rcases (CymeSerial.group_rewrite_facts cs H1 H2a H2b hq).2.1 d hdrw
          with hn | hn
        · have hnall : d.b0 ∉ CymeSerial.allBusNames cs :=
            fun h => H2b d.b0 (CymeSerial.groupNewNames_sub_all hq _ hn) h
          have hnp : d.b0 ∉ CymeSerial.groupNewNames p.1 p.2 := hpq d.b0 hn
          rcases (CymeSerial.sameEdge_iff _ _).mp hse with ⟨ha, _⟩ | ⟨_, hb⟩
          · rcases (CymeSerial.group_rewrite_facts cs H1 H2a H2b hp).1 c hcrw
              with ⟨hc0, _⟩
            rcases hc0 with hc0 | hc0
            · exact absurd (ha ▸ hc0) hnall
            · exact absurd (ha ▸ hc0) hnp
          · rcases (CymeSerial.group_rewrite_facts cs H1 H2a H2b hp).1 c hcrw
              with ⟨_, hc1⟩
            rcases hc1 with hc1 | hc1
            · exact absurd (hb ▸ hc1) hnall
            · exact absurd (hb ▸ hc1) hnp
        · have hnall : d.b1 ∉ CymeSerial.allBusNames cs :=
            fun h => H2b d.b1 (CymeSerial.groupNewNames_sub_all hq _ hn) h
          have hnp : d.b1 ∉ CymeSerial.groupNewNames p.1 p.2 := hpq d.b1 hn
          rcases (CymeSerial.sameEdge_iff _ _).mp hse with ⟨_, hb⟩ | ⟨ha, _⟩
          · rcases (CymeSerial.group_rewrite_facts cs H1 H2a H2b hp).1 c hcrw
              with ⟨_, hc1⟩
            rcases hc1 with hc1 | hc1
            · exact absurd (hb ▸ hc1) hnall
            · exact absurd (hb ▸ hc1) hnp
          · rcases (CymeSerial.group_rewrite_facts cs H1 H2a H2b hp).1 c hcrw
              with ⟨hc0, _⟩
            rcases hc0 with hc0 | hc0
            · exact absurd (ha ▸ hc0) hnall
            · exact absurd (ha ▸ hc0) hnp

/-- C2 witness: a consistently oriented branch/switch parallel pair is
serialized into a chain, and the invariant holds on the result. -/
theorem claim_C2_parallel_elimination_witness :
    ((CymeSerial.serializeParallelBranches
        [⟨.branch, "line1", "u", "v"⟩, ⟨.switch, "sw1", "u", "v"⟩]).all
      (fun c => (CymeSerial.serializeParallelBranches
          [⟨.branch, "line1", "u", "v"⟩, ⟨.switch, "sw1", "u", "v"⟩]).all
        (fun d => !(CymeSerial.sameEdge c d) || decide (c.kind = d.kind))))
      = true := by
  have h := claim_C2_parallel_elimination
    [⟨.branch, "line1", "u", "v"⟩, ⟨.switch, "sw1", "u", "v"⟩]
    (by
      intro g hg
      refine ⟨"u", "v", by decide, ?_⟩
      have hpg : CymeSerial.parallelGroups
          [⟨.branch, "line1", "u", "v"⟩, ⟨.switch, "sw1", "u", "v"⟩]
        = [[⟨.branch, "line1", "u", "v"⟩, ⟨.switch, "sw1", "u", "v"⟩]] := rfl
      rw [hpg] at hg
      have hgeq := List.mem_singleton.mp hg
      rw [hgeq]
      decide)
    (by decide) (by decide)
  rw [List.all_eq_true]
  intro c hc
  rw [List.all_eq_true]
  intro d hd
  by_cases hse : CymeSerial.sameEdge c d = true
  · simp [hse, h c hc d hd hse]
  · simp only [Bool.or_eq_true]
    exact Or.inl (by simp [Bool.eq_false_iff.mpr hse])

end Ditto





